import Mathlib

/-!
Verification of the transcript/article segmentation layer of the thesis
repository (debate-transcript parsers, speaker-role resolution, Factiva
article extraction and normalization).

All definitions are shallow embeddings of the Python sources under `src/`:
  * `src/text_to_utterances.py`  (all-caps regex formats, title-newline format)
  * `src/utterances.py`          (honorific-aware format)
  * `src/normalize_utterances.py`(speaker-role resolution)
  * `src/media_parse_factiva.py` (Factiva tag-grammar extraction)
  * `src/media_final_adjustments.py` (article body normalizer)

Python strings are modelled as `String`/`List Char`; the specific regular
expressions of the sources are compiled by hand into deterministic
scanners, following the actual backtracking semantics of `re` on the
pattern in question (greedy/lazy quantifiers, alternation order,
lookahead).  Machine-level details (CSV I/O, logging, progress bars) are
out of scope; parsers are modelled as pure functions from text to record
lists.
-/

namespace Thesis

/-! ## Python character classes and string helpers -/

/-- Python `str.isspace` / regex `\s` for the ASCII range:
space, tab, newline, carriage return, vertical tab, form feed. -/
def isPySpace (c : Char) : Bool :=
  c = ' ' || c = '\t' || c = '\n' || c = '\r' || c.toNat = 11 || c.toNat = 12

/-- ASCII uppercase letter. -/
def isUpperAZ (c : Char) : Bool := 'A' ≤ c && c ≤ 'Z'

/-- ASCII lowercase letter. -/
def isLowerAZ (c : Char) : Bool := 'a' ≤ c && c ≤ 'z'

/-- ASCII digit. -/
def isDigit09 (c : Char) : Bool := '0' ≤ c && c ≤ '9'

/-- ASCII letter. -/
def isAlphaAZ (c : Char) : Bool := isUpperAZ c || isLowerAZ c

/-- Regex `\w` (ASCII fragment): letter, digit or underscore. -/
def isWordChar (c : Char) : Bool := isAlphaAZ c || isDigit09 c || c = '_'

/-- ASCII lowercasing of one character (Python `str.lower` on ASCII). -/
def lowerChar (c : Char) : Char :=
  if isUpperAZ c then Char.ofNat (c.toNat + 32) else c

/-- ASCII uppercasing of one character (Python `str.upper` on ASCII). -/
def upperChar (c : Char) : Char :=
  if isLowerAZ c then Char.ofNat (c.toNat - 32) else c

/-- Python `str.strip()` on a character list: drop whitespace from both ends. -/
def pyStripL (l : List Char) : List Char :=
  ((l.dropWhile isPySpace).reverse.dropWhile isPySpace).reverse

/-- Python `str.rstrip()` on a character list. -/
def pyRstripL (l : List Char) : List Char :=
  (l.reverse.dropWhile isPySpace).reverse

/-- Python `str.strip()`. -/
def pyStrip (s : String) : String := ⟨pyStripL s.data⟩

/-- Python `str.rstrip()`. -/
def pyRstrip (s : String) : String := ⟨pyRstripL s.data⟩

/-- Python `str.lower()` (ASCII). -/
def pyLower (s : String) : String := ⟨s.data.map lowerChar⟩

/-- `str.replace("\n", " ")`: replace every newline by a space. -/
def replaceNlSpace (s : String) : String :=
  ⟨s.data.map (fun c => if c = '\n' then ' ' else c)⟩

/-- `str.rstrip('.')`: drop all trailing `'.'` characters. -/
def rstripDots (s : String) : String :=
  ⟨(s.data.reverse.dropWhile (· = '.')).reverse⟩

/-- Python `str.splitlines()` restricted to `'\n'` separators: split at every
newline, with no trailing empty line for text ending in `'\n'`. -/
def splitlinesL : List Char → List (List Char)
  | [] => []
  | c :: t =>
    match splitlinesL t with
    | [] => if c = '\n' then [[]] else [[c]]
    | l :: ls => if c = '\n' then [] :: l :: ls else (c :: l) :: ls

/-- `str.splitlines()` on strings (newline separators). -/
def splitlines (s : String) : List String :=
  (splitlinesL s.data).map (fun l => ⟨l⟩)

/-! ## All-caps regex formats (`src/text_to_utterances.py`)

`PATTERNS = {`
`  "all_caps_inline":  \n?([A-Z ]{2,}):\s?(.*?)(?=\n[A-Z ]{2,}:|\Z)  (DOTALL)`
`  "all_caps_newline": \n?([A-Z ]{2,}):\n(.*?)(?=\n[A-Z ]{2,}:|\Z)   (DOTALL)`
`}`

The scanner below implements `re.finditer` for these two patterns.
Determinism notes, justified by the backtracking rules of `re`:
  * `[A-Z ]{2,}` is greedy and `':'` is not in the class, so the label can
    only be the *maximal* run of class characters, which must be followed
    by `':'`;
  * `\n?` is only useful when the following character starts a label —
    if the leading `'\n'` is not consumed the label would have to start
    with `'\n'`, which is not in the class;
  * the lookahead `(?=\n[A-Z ]{2,}:|\Z)` always succeeds at the end of the
    input (`\Z`), so the lazy group `(.*?)` takes the *least* end position
    at which the lookahead holds, and `\s?` never needs to backtrack. -/

/-- Character class `[A-Z ]` of the caps-format label grammar. -/
def isCapsSp (c : Char) : Bool := isUpperAZ c || c = ' '

/-- If the text starts with a label `[A-Z ]{2,}` immediately followed by
`':'`, the length of that (maximal) label run. -/
def labelHeadLen (s : List Char) : Option Nat :=
  if 2 ≤ (s.takeWhile isCapsSp).length ∧
      (s.drop (s.takeWhile isCapsSp).length).head? = some ':' then
    some (s.takeWhile isCapsSp).length
  else none

/-- The lookahead `(?=\n[A-Z ]{2,}:|\Z)` at the head of the remaining text. -/
def lookHead (s : List Char) : Bool :=
  match s with
  | [] => true
  | c :: t => c = '\n' && (labelHeadLen t).isSome

/-- Number of characters consumed by the lazy group `(.*?)` before the
lookahead first holds (it always holds at the end of input, `\Z`). -/
def lazyEnd : List Char → Nat
  | [] => 0
  | c :: t => if lookHead (c :: t) then 0 else lazyEnd t + 1

theorem lazyEnd_le_length (s : List Char) : lazyEnd s ≤ s.length := by
  induction s with
  | nil => simp [lazyEnd]
  | cons c t ih =>
    simp only [lazyEnd]
    split
    · simp
    · simpa [List.length_cons] using Nat.succ_le_succ ih

/-- The optional leading `\n?` of the caps patterns: consumed exactly when
present (a label cannot start with `'\n'`). -/
def dropOptNl (s : List Char) : List Char :=
  match s with
  | c :: u => if c = '\n' then u else c :: u
  | [] => []

/-- The `\s?` after the label of the inline pattern: one whitespace
character is consumed when present (the following lazy group never fails,
so the greedy first choice stands). -/
def dropOptWs (s : List Char) : List Char :=
  match s with
  | c :: u => if isPySpace c then u else c :: u
  | [] => []

/-- One attempted match of the caps pattern anchored at the head of `s`
(`newlineMode = true` selects the `all_caps_newline` pattern, whose label
is followed by a literal `'\n'` instead of `\s?`).  Returns
`(group 1, group 2, text after the match end)` on success. -/
def matchHeadCaps (newlineMode : Bool) (s : List Char) :
    Option (List Char × List Char × List Char) :=
  match labelHeadLen (dropOptNl s) with
  | none => none
  | some r =>
    if newlineMode then
      match (dropOptNl s).drop (r + 1) with
      | c :: u =>
        if c = '\n' then
          some ((dropOptNl s).take r, u.take (lazyEnd u), u.drop (lazyEnd u))
        else none
      | [] => none
    else
      some ((dropOptNl s).take r,
        (dropOptWs ((dropOptNl s).drop (r + 1))).take
          (lazyEnd (dropOptWs ((dropOptNl s).drop (r + 1)))),
        (dropOptWs ((dropOptNl s).drop (r + 1))).drop
          (lazyEnd (dropOptWs ((dropOptNl s).drop (r + 1)))))

theorem labelHeadLen_bounds {s : List Char} {r : Nat}
    (h : labelHeadLen s = some r) : 2 ≤ r ∧ r + 1 ≤ s.length := by
  unfold labelHeadLen at h
  split at h
  · rename_i hcond
    cases h
    refine ⟨hcond.1, ?_⟩
    have hne : s.drop (s.takeWhile isCapsSp).length ≠ [] := by
      intro hnil
      rw [hnil] at hcond
      simp at hcond
    have : (s.takeWhile isCapsSp).length < s.length := by
      by_contra hle
      push_neg at hle
      exact hne (List.drop_eq_nil_of_le hle)
    omega
  · exact absurd h (by simp)

theorem dropOptNl_length_le (s : List Char) : (dropOptNl s).length ≤ s.length := by
  cases s with
  | nil => simp [dropOptNl]
  | cons c u =>
    by_cases h : c = '\n' <;> simp [dropOptNl, h]

theorem dropOptWs_length_le (s : List Char) : (dropOptWs s).length ≤ s.length := by
  cases s with
  | nil => simp [dropOptWs]
  | cons c u =>
    by_cases h : isPySpace c <;> simp [dropOptWs, h]

theorem matchHeadCaps_rest_lt {m : Bool} {s lab g2 rest : List Char}
    (h : matchHeadCaps m s = some (lab, g2, rest)) :
    rest.length < s.length := by
  unfold matchHeadCaps at h
  rcases hl : labelHeadLen (dropOptNl s) with _ | r <;> rw [hl] at h <;>
    dsimp only at h
  · exact absurd h (by simp)
  obtain ⟨hr2, hrlen⟩ := labelHeadLen_bounds hl
  have ht := dropOptNl_length_le s
  by_cases hm : m
  · rw [if_pos hm] at h
    rcases hd : (dropOptNl s).drop (r + 1) with _ | ⟨d, v⟩ <;> rw [hd] at h <;>
      dsimp only at h
    · exact absurd h (by simp)
    by_cases hnl : d = '\n'
    · rw [if_pos hnl] at h
      simp only [Option.some.injEq, Prod.mk.injEq] at h
      obtain ⟨-, -, hrest⟩ := h
      have hvlen : (dropOptNl s).length - (r + 1) = v.length + 1 := by
        have := congrArg List.length hd
        simpa using this
      have hle := lazyEnd_le_length v
      have : rest.length = v.length - lazyEnd v := by
        rw [← hrest]; simp
      omega
    · rw [if_neg hnl] at h
      exact absurd h (by simp)
  · rw [if_neg hm] at h
    simp only [Option.some.injEq, Prod.mk.injEq] at h
    obtain ⟨-, -, hrest⟩ := h
    have h1 := dropOptWs_length_le ((dropOptNl s).drop (r + 1))
    have h2 : ((dropOptNl s).drop (r + 1)).length = (dropOptNl s).length - (r + 1) := by
      simp
    have : rest.length ≤ (dropOptWs ((dropOptNl s).drop (r + 1))).length := by
      rw [← hrest]; simp
    omega

/-- `re.finditer` for the caps patterns: repeatedly find the leftmost
match (trying each successive start position), emit `(group 1, group 2)`,
and continue scanning from the match end.  Structurally recursive on a
fuel argument; `matchHeadCaps_rest_lt` shows the fuel never runs out when
it starts at the text length. -/
def scanCapsF (m : Bool) : Nat → List Char → List (List Char × List Char)
  | 0, _ => []
  | _ + 1, [] => []
  | fuel + 1, c :: t =>
    match matchHeadCaps m (c :: t) with
    | some (lab, g2, rest) => (lab, g2) :: scanCapsF m fuel rest
    | none => scanCapsF m fuel t

/-- `re.finditer` for the caps patterns on a whole text. -/
def scanCaps (m : Bool) (s : List Char) : List (List Char × List Char) :=
  scanCapsF m s.length s

theorem scanCapsF_fuel {m : Bool} :
    ∀ (fuel₁ fuel₂ : Nat) (s : List Char), s.length ≤ fuel₁ → s.length ≤ fuel₂ →
      scanCapsF m fuel₁ s = scanCapsF m fuel₂ s := by
  intro fuel₁
  induction fuel₁ with
  | zero =>
    intro fuel₂ s h1 h2
    have : s = [] := List.eq_nil_of_length_eq_zero (Nat.le_zero.mp h1)
    subst this
    cases fuel₂ <;> rfl
  | succ n ih =>
    intro fuel₂ s h1 h2
    cases s with
    | nil => cases fuel₂ <;> rfl
    | cons c t =>
      cases fuel₂ with
      | zero => simp at h2
      | succ n2 =>
        simp only [scanCapsF]
        rcases hm : matchHeadCaps m (c :: t) with _ | ⟨lab, g2, rest⟩ <;>
          dsimp only
        · simp only [List.length_cons] at h1 h2
          exact ih n2 t (by omega) (by omega)
        · have hlt := matchHeadCaps_rest_lt hm
          simp only [List.length_cons] at h1 h2 hlt
          rw [ih n2 rest (by omega) (by omega)]

/-- One-step unfolding of `scanCaps` at a non-empty text. -/
theorem scanCaps_cons (m : Bool) (c : Char) (t : List Char) :
    scanCaps m (c :: t) =
      match matchHeadCaps m (c :: t) with
      | some (lab, g2, rest) => (lab, g2) :: scanCaps m rest
      | none => scanCaps m t := by
  unfold scanCaps
  simp only [List.length_cons, scanCapsF]
  rcases hm : matchHeadCaps m (c :: t) with _ | ⟨lab, g2, rest⟩
  · rfl
  · have hlt := matchHeadCaps_rest_lt hm
    simp only [List.length_cons] at hlt
    show (lab, g2) :: scanCapsF m t.length rest =
      (lab, g2) :: scanCapsF m rest.length rest
    rw [scanCapsF_fuel t.length rest.length rest (by omega) (by omega)]

/-- One utterance record as assembled by the parsers
(`utterance_id = f"{debate_id}_{idx}"` for the regex/honorific formats;
a bare integer id for the title-newline format). -/
structure Utt where
  idx : Nat
  debate_id : String
  speaker : String
  text : String
  deriving Repr, DecidableEq

/-- A semantic transcript record for the all-caps formats (the spec's
notion of "semantically identical transcripts" restructured between the
two layouts): an all-caps speaker label and a body. -/
structure CapsRec where
  label : String
  body : String
  deriving Repr, DecidableEq

/-- Well-formedness of a semantic record: the label fits the `[A-Z ]{2,}`
grammar and the body spans a single layout block (no embedded newline). -/
def capsWF (r : CapsRec) : Bool :=
  decide (2 ≤ r.label.data.length) && r.label.data.all isCapsSp &&
    r.body.data.all (fun c => decide (c ≠ '\n'))

/-- Render a semantic transcript in one of the two all-caps layouts:
`"LABEL: body"` lines for the inline layout (`m = false`), and
`"LABEL:\nbody"` blocks for the newline layout (`m = true`), records
separated by single newlines. -/
def renderCaps (m : Bool) : List CapsRec → List Char
  | [] => []
  | r :: rs =>
    r.label.data ++ ':' :: (if m then '\n' else ' ') ::
      (r.body.data ++
        (match rs with
         | [] => []
         | _ :: _ => '\n' :: renderCaps m rs))

/-- The rendered text following a record's body: empty at the end of the
transcript, otherwise a newline and the remaining records. -/
def capsTail (m : Bool) (rs : List CapsRec) : List Char :=
  match rs with
  | [] => []
  | _ :: _ => '\n' :: renderCaps m rs

/-! ## Title-newline format (`src/text_to_utterances.py`)

`is_speaker_line(line, max_len=30)`:
`line = line.strip()`; the prefix whitelist
`['Mr\.','Ms\.','Mrs\.','President','The President','Governor','Gov\.',`
` 'Senator','Sen\.','Question','Q','Moderator']`;
`pattern = ^(alt)(?:\s+[A-Z][a-z]+)?\.$`;
result `len(line) <= 30 and line.endswith('.') and re.match(pattern, line)`.

Since the stripped line contains no newline, `re.match` with the trailing
`\.$` is a full match.  In `\s+[A-Z][a-z]+`, the runs of `\s+` and
`[a-z]+` can only be maximal (a shorter run leaves a same-class character
where the next literal class is required), so matching is deterministic. -/

/-- The prefix whitelist of `is_speaker_line`, in source order. -/
def speakerPrefixes : List String :=
  ["Mr.", "Ms.", "Mrs.", "President", "The President",
   "Governor", "Gov.", "Senator", "Sen.", "Question", "Q", "Moderator"]

/-- Matches the remainder of a speaker line against `\s+[A-Z][a-z]+\.`
(the optional title-plus-name tail, fully). -/
def nameDotTail (r : List Char) : Bool :=
  let w := (r.takeWhile isPySpace).length
  1 ≤ w &&
    match r.drop w with
    | c :: t =>
      isUpperAZ c &&
        (let ll := (t.takeWhile isLowerAZ).length
         1 ≤ ll && t.drop ll = ['.'])
    | [] => false

/-- `is_speaker_line` of `src/text_to_utterances.py`. -/
def is_speaker_line (line : String) : Bool :=
  let l := pyStrip line
  l.length ≤ 30 && l.data.getLast? = some '.' &&
    speakerPrefixes.any fun p =>
      p.data.isPrefixOf l.data &&
        (let r := l.data.drop p.length
         r = ['.'] || nameDotTail r)

/-- `' '.join(current_utterance).strip()`. -/
def joinStrip (cu : List String) : String :=
  pyStrip (String.intercalate " " cu)

/-- The line loop of `parse_title_newline_format`: state is
`(current_speaker, current_utterance)`; a speaker line flushes the
previous speaker's utterance when both the speaker and the accumulated
line list are non-empty (`if current_speaker and current_utterance:`),
and the accumulated list is reset *only* inside that flush.  The final
utterance is flushed after the loop under the same condition. -/
def titleAux (cs : Option String) (cu : List String) :
    List String → List (String × String)
  | [] =>
    match cs with
    | some sp => if cu ≠ [] then [(rstripDots sp, joinStrip cu)] else []
    | none => []
  | l :: ls =>
    if is_speaker_line l then
      match cs with
      | some sp =>
        if cu ≠ [] then
          (rstripDots sp, joinStrip cu) :: titleAux (some (pyStrip l)) [] ls
        else
          titleAux (some (pyStrip l)) cu ls
      | none => titleAux (some (pyStrip l)) cu ls
    else
      titleAux cs (cu ++ [pyStrip l]) ls

/-- `parse_title_newline_format` of `src/text_to_utterances.py`, taking the
transcript as its list of lines (`f.read().splitlines()`); the
`utterance_id` column is `range(1, len(df) + 1)`. -/
def parse_title_newline_format (debate_id : String) (lines : List String) :
    List Utt :=
  (titleAux none [] lines).enum.map fun p =>
    { idx := p.1 + 1
      debate_id := debate_id
      speaker := p.2.1
      text := p.2.2 }

/-- `parse_regex_format` of `src/text_to_utterances.py`:
`speaker = match.group(1).strip()`,
`content = match.group(2).strip().replace("\n", " ")`,
one record per match, numbered `i+1` in match order. -/
def parse_regex_format (newlineMode : Bool) (debate_id : String) (text : String) :
    List Utt :=
  (scanCaps newlineMode text.data).enum.map fun p =>
    { idx := p.1 + 1
      debate_id := debate_id
      speaker := pyStrip ⟨p.2.1⟩
      text := replaceNlSpace (pyStrip ⟨p.2.2⟩) }

/-- Well-formedness of a title-newline transcript: every recognized
speaker line is immediately followed by a (non-speaker) content line, so
each speaker transition carries some text.  (Without this, consecutive
speaker lines make the parser drop the earlier speaker: the flush is
guarded by `if current_speaker and current_utterance:`.) -/
def titleWF : List String → Bool
  | [] => true
  | l :: ls =>
    (if is_speaker_line l then
       match ls with
       | [] => false
       | l2 :: _ => !is_speaker_line l2
     else true) && titleWF ls

/-- The number of records still pending in the state `(cs, cu)` of the
title-newline line loop when `lines` remain: one record is flushed at
the end iff a speaker is current and either text is already accumulated
or the next line will accumulate some. -/
def titlePending (cs : Option String) (cu : List String)
    (lines : List String) : Nat :=
  match cs with
  | none => 0
  | some _ =>
    if cu ≠ [] then 1
    else
      match lines with
      | [] => 0
      | l :: _ => if is_speaker_line l then 0 else 1

/-! ## Honorific-aware format (`src/utterances.py`)

`SPEAKER_PATTERN =`
`(?:^|\n)(Mr\.|Ms\.|Mrs\.|The President|Senator|Governor|Moderator)? ?`
`([A-Z][a-z]+(?: [A-Z][a-z]+)*?)\.\n`  with `re.MULTILINE`.

Determinism notes: inside `[a-z]+` and the `\s`-free name words only the
maximal run can succeed (the following character classes are disjoint),
the lazy `(?: [A-Z][a-z]+)*?` takes the fewest repetitions after which
`\.\n` follows, alternatives are tried in source order, and the optional
honorific/space fall back to the empty match when no continuation
succeeds.  `^` (MULTILINE) matches at offset 0 and after every `'\n'`. -/

/-- `normalize` of `src/utterances.py`: `text.replace('\r\n', '\n')`. -/
def normalizeCRLF : List Char → List Char
  | '\r' :: '\n' :: t => '\n' :: normalizeCRLF t
  | c :: t => c :: normalizeCRLF t
  | [] => []

/-- The lazy `(?: [A-Z][a-z]+)*?\.\n` tail of the name group: `acc` holds
the name characters consumed so far; the continuation `\.\n` is tried
before each further repetition (lazy star).  Returns
`(group 2 characters, text after the final '\n')`.  Structurally
recursive on a fuel argument that dominates the text length. -/
def nameLoopF (fuel : Nat) (acc u : List Char) : Option (List Char × List Char) :=
  match u with
  | c1 :: c2 :: t =>
    if c1 = '.' ∧ c2 = '\n' then some (acc, t)
    else if c1 = ' ' ∧ isUpperAZ c2 ∧ 1 ≤ (t.takeWhile isLowerAZ).length then
      match fuel with
      | 0 => none
      | fuel + 1 =>
        nameLoopF fuel (acc ++ ' ' :: c2 :: t.takeWhile isLowerAZ)
          (t.drop (t.takeWhile isLowerAZ).length)
    else none
  | _ => none

theorem nameLoopF_fuel :
    ∀ (fuel₁ fuel₂ : Nat) (acc u : List Char), u.length ≤ fuel₁ →
      u.length ≤ fuel₂ → nameLoopF fuel₁ acc u = nameLoopF fuel₂ acc u := by
  intro fuel₁
  induction fuel₁ with
  | zero =>
    intro fuel₂ acc u h1 h2
    have : u = [] := List.eq_nil_of_length_eq_zero (Nat.le_zero.mp h1)
    subst this
    cases fuel₂ <;> rfl
  | succ n ih =>
    intro fuel₂ acc u h1 h2
    rcases u with _ | ⟨c1, _ | ⟨c2, t⟩⟩
    · cases fuel₂ <;> rfl
    · cases fuel₂ with
      | zero => simp at h2
      | succ n2 => rfl
    · cases fuel₂ with
      | zero => simp at h2
      | succ n2 =>
        rw [nameLoopF, nameLoopF]
        by_cases hdot : c1 = '.' ∧ c2 = '\n'
        · rw [if_pos hdot, if_pos hdot]
        · rw [if_neg hdot, if_neg hdot]
          by_cases hrep : c1 = ' ' ∧ isUpperAZ c2 = true ∧
              1 ≤ (t.takeWhile isLowerAZ).length
          · rw [if_pos hrep, if_pos hrep]
            apply ih
            · simp only [List.length_cons, List.length_drop] at h1 ⊢
              omega
            · simp only [List.length_cons, List.length_drop] at h2 ⊢
              omega
          · rw [if_neg hrep, if_neg hrep]

/-- The lazy name-group tail starting with full fuel. -/
def nameLoop (acc u : List Char) : Option (List Char × List Char) :=
  nameLoopF u.length acc u

/-- The mandatory name group `([A-Z][a-z]+(?: [A-Z][a-z]+)*?)` followed by
`\.\n`. -/
def nameMatch (u : List Char) : Option (List Char × List Char) :=
  match u with
  | c :: t =>
    if isUpperAZ c ∧ 1 ≤ (t.takeWhile isLowerAZ).length then
      nameLoop (c :: t.takeWhile isLowerAZ) (t.drop (t.takeWhile isLowerAZ).length)
    else none
  | [] => none

/-- The greedy optional `' ?'` before the name group: try consuming one
space first, fall back to not consuming it. -/
def tryWithSpace (v : List Char) : Option (List Char × List Char) :=
  match v with
  | c :: w =>
    if c = ' ' then
      match nameMatch w with
      | some r => some r
      | none => nameMatch (c :: w)
    else nameMatch (c :: w)
  | [] => nameMatch []

/-- The honorific alternatives of `SPEAKER_PATTERN`, in source order. -/
def honorifics : List String :=
  ["Mr.", "Ms.", "Mrs.", "The President", "Senator", "Governor", "Moderator"]

/-- The body of `SPEAKER_PATTERN` after `(?:^|\n)`: try each honorific
alternative in order (each followed by `' ?'` and the name group), then
the empty honorific.  Returns `(group 1, group 2, rest)`. -/
def hcoreAux : List String → List Char → Option (Option String × List Char × List Char)
  | [], u =>
    match tryWithSpace u with
    | some (g2, rest) => some (none, g2, rest)
    | none => none
  | h :: hs, u =>
    if h.data.isPrefixOf u then
      match tryWithSpace (u.drop h.length) with
      | some (g2, rest) => some (some h, g2, rest)
      | none => hcoreAux hs u
    else hcoreAux hs u

/-- `SPEAKER_PATTERN` minus the `(?:^|\n)` anchor, at the head of `u`. -/
def hcore (u : List Char) : Option (Option String × List Char × List Char) :=
  hcoreAux honorifics u

/-- A full `SPEAKER_PATTERN` match attempt at the current position:
`atStart` records whether the position is at offset 0 or just after a
`'\n'` (where MULTILINE `^` matches); the `^` alternative is tried before
the `'\n'`-consuming alternative. -/
def hmatchAt (s : List Char) (atStart : Bool) :
    Option (Option String × List Char × List Char) :=
  match (if atStart then hcore s else none) with
  | some r => some r
  | none =>
    match s with
    | c :: t => if c = '\n' then hcore t else none
    | [] => none

/-- Leftmost-match search for `SPEAKER_PATTERN`: returns the characters
skipped before the match (the inter-match text used for utterance spans)
together with the match data, or all of `s` when there is no match. -/
def findHSplit : List Char → Bool → List Char × Option (Option String × List Char × List Char)
  | [], _ => ([], none)
  | c :: t, b =>
    match hmatchAt (c :: t) b with
    | some r => ([], some r)
    | none =>
      match findHSplit t (c = '\n') with
      | (sk, r) => (c :: sk, r)

theorem nameLoopF_rest_lt :
    ∀ {fuel : Nat} {acc u a r : List Char},
      nameLoopF fuel acc u = some (a, r) → r.length < u.length := by
  intro fuel
  induction fuel with
  | zero =>
    intro acc u a r h
    rcases u with _ | ⟨c1, _ | ⟨c2, t⟩⟩
    · exact absurd h (by simp [nameLoopF])
    · exact absurd h (by simp [nameLoopF])
    · rw [nameLoopF] at h
      by_cases hdot : c1 = '.' ∧ c2 = '\n'
      · rw [if_pos hdot] at h
        simp only [Option.some.injEq, Prod.mk.injEq] at h
        obtain ⟨-, hr⟩ := h
        subst hr
        simp only [List.length_cons]
        omega
      · rw [if_neg hdot] at h
        split at h
        · exact absurd h (by simp)
        · exact absurd h (by simp)
  | succ n ih =>
    intro acc u a r h
    rcases u with _ | ⟨c1, _ | ⟨c2, t⟩⟩
    · exact absurd h (by simp [nameLoopF])
    · exact absurd h (by simp [nameLoopF])
    · rw [nameLoopF] at h
      by_cases hdot : c1 = '.' ∧ c2 = '\n'
      · rw [if_pos hdot] at h
        simp only [Option.some.injEq, Prod.mk.injEq] at h
        obtain ⟨-, hr⟩ := h
        subst hr
        simp only [List.length_cons]
        omega
      · rw [if_neg hdot] at h
        split at h
        · try dsimp only at h
          have := ih h
          simp only [List.length_cons, List.length_drop] at this ⊢
          omega
        · exact absurd h (by simp)

theorem nameLoop_rest_lt {acc u a r : List Char}
    (h : nameLoop acc u = some (a, r)) : r.length < u.length :=
  nameLoopF_rest_lt h

theorem nameMatch_rest_lt {u a r : List Char}
    (h : nameMatch u = some (a, r)) : r.length < u.length := by
  unfold nameMatch at h
  split at h
  · rename_i c t
    split at h
    · have := nameLoop_rest_lt h
      simp only [List.length_drop] at this
      simp only [List.length_cons]
      omega
    · exact absurd h (by simp)
  · exact absurd h (by simp)

theorem tryWithSpace_rest_lt {v a r : List Char}
    (h : tryWithSpace v = some (a, r)) : r.length < v.length := by
  rcases v with _ | ⟨c, w⟩
  · exact nameMatch_rest_lt h
  · rw [tryWithSpace] at h
    by_cases hc : c = ' '
    · rw [if_pos hc] at h
      rcases hm : nameMatch w with _ | ⟨a2, r2⟩ <;> rw [hm] at h <;>
        try dsimp only at h
      · exact nameMatch_rest_lt h
      · simp only [Option.some.injEq, Prod.mk.injEq] at h
        obtain ⟨-, hr⟩ := h
        subst hr
        have := nameMatch_rest_lt hm
        simp only [List.length_cons]
        omega
    · rw [if_neg hc] at h
      exact nameMatch_rest_lt h

theorem hcoreAux_rest_lt {hs : List String} {u : List Char}
    {g1 : Option String} {g2 r : List Char}
    (h : hcoreAux hs u = some (g1, g2, r)) : r.length < u.length := by
  induction hs with
  | nil =>
    unfold hcoreAux at h
    rcases hm : tryWithSpace u with _ | p <;> rw [hm] at h
    · exact absurd h (by simp)
    · obtain ⟨a, b⟩ := p
      simp only [Option.some.injEq, Prod.mk.injEq] at h
      obtain ⟨-, -, hr⟩ := h
      subst hr
      exact tryWithSpace_rest_lt hm
  | cons hd tl ih =>
    unfold hcoreAux at h
    split at h
    · rcases hm : tryWithSpace (u.drop hd.length) with _ | p <;> rw [hm] at h
      · exact ih h
      · obtain ⟨a, b⟩ := p
        simp only [Option.some.injEq, Prod.mk.injEq] at h
        obtain ⟨-, -, hr⟩ := h
        subst hr
        have := tryWithSpace_rest_lt hm
        simp only [List.length_drop] at this
        omega
    · exact ih h

theorem hmatchAt_rest_lt {s : List Char} {b : Bool}
    {g1 : Option String} {g2 r : List Char}
    (h : hmatchAt s b = some (g1, g2, r)) : r.length < s.length := by
  unfold hmatchAt at h
  rcases hc : (if b then hcore s else none) with _ | p <;> rw [hc] at h <;>
    dsimp only at h
  · rcases s with _ | ⟨c, t⟩
    · exact absurd h (by simp)
    · dsimp only at h
      by_cases hnl : c = '\n'
      · rw [if_pos hnl] at h
        have h2 : hcoreAux honorifics t = some (g1, g2, r) := h
        have := hcoreAux_rest_lt h2
        simp only [List.length_cons]
        omega
      · rw [if_neg hnl] at h
        exact absurd h (by simp)
  · simp only [Option.some.injEq] at h
    subst h
    by_cases hb : b
    · rw [if_pos hb] at hc
      exact hcoreAux_rest_lt hc
    · rw [if_neg hb] at hc
      exact absurd hc (by simp)

theorem findHSplit_rest_lt {s : List Char} {b : Bool} {sk : List Char}
    {g1 : Option String} {g2 r : List Char}
    (h : findHSplit s b = (sk, some (g1, g2, r))) : r.length < s.length := by
  induction s generalizing b sk with
  | nil =>
    unfold findHSplit at h
    simp at h
  | cons c t ih =>
    unfold findHSplit at h
    rcases hm : hmatchAt (c :: t) b with _ | p <;> rw [hm] at h
    · rcases hf : findHSplit t (c = '\n') with ⟨sk2, r2⟩
      rw [hf] at h
      simp only [Prod.mk.injEq] at h
      obtain ⟨-, hr2⟩ := h
      subst hr2
      have := ih hf
      simp only [List.length_cons]
      omega
    · obtain ⟨a1, a2, a3⟩ := p
      simp only [Prod.mk.injEq, Option.some.injEq] at h
      obtain ⟨-, h1, h2, h3⟩ := h
      subst h1; subst h2; subst h3
      exact hmatchAt_rest_lt hm

/-- The chain of matches and their following inter-match spans: each
element is `(group 1, group 2, text up to the next match start or the end
of input)`.  Structurally recursive on a fuel argument that dominates the
remaining text length (`findHSplit_rest_lt`). -/
def chainHF (fuel : Nat) (g1 : Option String) (g2 : List Char) (rest : List Char) :
    List (Option String × List Char × List Char) :=
  match findHSplit rest true with
  | (span, none) => [(g1, g2, span)]
  | (span, some (h1, h2, rest2)) =>
    match fuel with
    | 0 => [(g1, g2, span)]
    | fuel + 1 => (g1, g2, span) :: chainHF fuel h1 h2 rest2

theorem chainHF_fuel :
    ∀ (fuel₁ fuel₂ : Nat) (g1 : Option String) (g2 rest : List Char),
      rest.length ≤ fuel₁ → rest.length ≤ fuel₂ →
      chainHF fuel₁ g1 g2 rest = chainHF fuel₂ g1 g2 rest := by
  intro fuel₁
  induction fuel₁ with
  | zero =>
    intro fuel₂ g1 g2 rest h1 h2
    have hrest : rest = [] := List.eq_nil_of_length_eq_zero (Nat.le_zero.mp h1)
    subst hrest
    cases fuel₂ <;> rfl
  | succ n ih =>
    intro fuel₂ g1 g2 rest h1 h2
    rw [chainHF, chainHF]
    rcases hf : findHSplit rest true with ⟨span, _ | ⟨hh1, hh2, rest2⟩⟩
    · rfl
    · have hlt := findHSplit_rest_lt hf
      cases fuel₂ with
      | zero => omega
      | succ n2 =>
        show (g1, g2, span) :: chainHF n hh1 hh2 rest2 =
          (g1, g2, span) :: chainHF n2 hh1 hh2 rest2
        rw [ih n2 hh1 hh2 rest2 (by omega) (by omega)]

/-- `chainH` with full fuel. -/
def chainH (g1 : Option String) (g2 : List Char) (rest : List Char) :
    List (Option String × List Char × List Char) :=
  chainHF rest.length g1 g2 rest

/-- The list of `SPEAKER_PATTERN` matches of a text, each with its
following inter-match span (`list(SPEAKER_PATTERN.finditer(text))`
together with the spans `text[m_i.end : m_{i+1}.start]`). -/
def hMatches (text : String) : List (Option String × List Char × List Char) :=
  match findHSplit (normalizeCRLF text.data) true with
  | (_, none) => []
  | (_, some (g1, g2, rest)) => chainH g1 g2 rest

/-- `parse_honorific_format` of `src/utterances.py`: normalize CRLF, find
all `SPEAKER_PATTERN` matches, and for match `i` (0-based) emit a record
with id `i+1`, `speaker = f"{g1 or ''} {g2}".strip()` and
`text = span.strip().replace('\n', ' ')` — but only when that text is
non-empty (`if utterance:`). -/
def parse_honorific_format (debate_id : String) (text : String) : List Utt :=
  (hMatches text).enum.filterMap fun p =>
    let utterance := replaceNlSpace (pyStrip ⟨p.2.2.2⟩)
    if utterance ≠ "" then
      some { idx := p.1 + 1
             debate_id := debate_id
             speaker := pyStrip ((p.2.1.getD "") ++ " " ++ (⟨p.2.2.1⟩ : String))
             text := utterance }
    else none

/-! ## Speaker-role resolution (`src/normalize_utterances.py`) -/

/-- `re.sub(r"\(.*?\)", "", ...)` helper: the text after the first `')'`
reachable without crossing a newline (`.` does not match `'\n'`), if any. -/
def findClose : List Char → Option (List Char)
  | [] => none
  | ')' :: u => some u
  | '\n' :: _ => none
  | _ :: u => findClose u

theorem findClose_lt {t u : List Char} (h : findClose t = some u) :
    u.length < t.length := by
  induction t with
  | nil => simp [findClose] at h
  | cons c w ih =>
    by_cases hc : c = ')'
    · subst hc
      rw [findClose] at h
      cases h
      simp
    · by_cases hn : c = '\n'
      · subst hn
        rw [findClose] at h
        exact absurd h (by simp)
      · rw [findClose] at h
        · have := ih h
          simp only [List.length_cons]
          omega
        · exact hc
        · exact hn

/-- `re.sub(r"\(.*?\)", "", s)`: remove every lazily matched
parenthesized group; an unmatched `'('` (no `')'` before a newline) is
kept, and scanning continues at the following character.  Structurally
recursive on a fuel argument that dominates the text length. -/
def removeParensF : Nat → List Char → List Char
  | _, [] => []
  | 0, l => l
  | fuel + 1, c :: t =>
    if c = '(' then
      match findClose t with
      | some u => removeParensF fuel u
      | none => c :: removeParensF fuel t
    else c :: removeParensF fuel t

theorem removeParensF_fuel :
    ∀ (fuel₁ fuel₂ : Nat) (l : List Char), l.length ≤ fuel₁ →
      l.length ≤ fuel₂ → removeParensF fuel₁ l = removeParensF fuel₂ l := by
  intro fuel₁
  induction fuel₁ with
  | zero =>
    intro fuel₂ l h1 h2
    have : l = [] := List.eq_nil_of_length_eq_zero (Nat.le_zero.mp h1)
    subst this
    cases fuel₂ <;> rfl
  | succ n ih =>
    intro fuel₂ l h1 h2
    cases l with
    | nil => cases fuel₂ <;> rfl
    | cons c t =>
      cases fuel₂ with
      | zero => simp at h2
      | succ n2 =>
        rw [removeParensF, removeParensF]
        simp only [List.length_cons] at h1 h2
        by_cases hc : c = '('
        · rw [if_pos hc, if_pos hc]
          rcases hfc : findClose t with _ | u <;> dsimp only
          · rw [ih n2 t (by omega) (by omega)]
          · have := findClose_lt hfc
            rw [ih n2 u (by omega) (by omega)]
        · rw [if_neg hc, if_neg hc, ih n2 t (by omega) (by omega)]

/-- `re.sub(r"\(.*?\)", "", s)` with full fuel. -/
def removeParens (l : List Char) : List Char :=
  removeParensF l.length l

/-- Whitespace-run collapsing `re.sub(r"\s+", " ", ...)`: every maximal
whitespace run becomes one space (tracked by the was-in-run flag). -/
def collapseWsAux : Bool → List Char → List Char
  | _, [] => []
  | prevWs, c :: t =>
    if isPySpace c then
      if prevWs then collapseWsAux true t else ' ' :: collapseWsAux true t
    else c :: collapseWsAux false t

/-- `re.sub(r"\s+", " ", l)`. -/
def collapseWs (l : List Char) : List Char := collapseWsAux false l

/-- Python `str.split()` (no separator): maximal non-whitespace runs. -/
def wordsWsAux : List Char → List Char → List (List Char)
  | cur, [] => if cur = [] then [] else [cur.reverse]
  | cur, c :: t =>
    if isPySpace c then
      if cur = [] then wordsWsAux [] t else cur.reverse :: wordsWsAux [] t
    else wordsWsAux (c :: cur) t

/-- Python `s.split()`. -/
def pySplitWs (s : String) : List String :=
  (wordsWsAux [] s.data).map fun l => ⟨l⟩

/-- `" ".join(ws)` on character lists: the canonical single-space form of
a word list. -/
def joinSp : List (List Char) → List Char
  | [] => []
  | [w] => w
  | w :: ws => w ++ ' ' :: joinSp ws

/-- Python `str.title()` (ASCII): uppercase a letter not preceded by a
letter, lowercase a letter preceded by one. -/
def pyTitleAux : Bool → List Char → List Char
  | _, [] => []
  | prevAlpha, c :: t =>
    if isAlphaAZ c then
      (if prevAlpha then lowerChar c else upperChar c) :: pyTitleAux true t
    else c :: pyTitleAux false t

/-- Python `str.title()`. -/
def pyTitle (s : String) : String := ⟨pyTitleAux false s.data⟩

/-- `normalize_speaker_name` of `src/normalize_utterances.py`:
strip, drop trailing periods (`re.sub(r"\.+$", "")`), collapse
whitespace, title-case. -/
def normalize_speaker_name (name : String) : String :=
  pyTitle ⟨collapseWs (rstripDots (pyStrip name)).data⟩

/-- `clean_for_matching` of `src/normalize_utterances.py`: lowercase and
strip, remove lazy parentheticals, keep only `[a-z\s]`, collapse
whitespace. -/
def clean_for_matching (name : String) : String :=
  ⟨collapseWs ((removeParens (pyStrip (pyLower name)).data).filter
    fun c => isLowerAZ c || isPySpace c)⟩

/-- Non-empty token-set intersection
(`set(a.split()) & set(b.split())`). -/
def tokenOverlap (a b : String) : Bool :=
  (pySplitWs a).any fun tok => (pySplitWs b).contains tok

/-- The roster loop of `match_role`: first entry (in declared order) with
non-empty token overlap wins; empty names are skipped (`if not full_name:
continue`). -/
def rosterMatch (nameClean : String) : List (String × String) → Option String
  | [] => none
  | (fullName, role) :: rest =>
    if fullName = "" then rosterMatch nameClean rest
    else if tokenOverlap nameClean (clean_for_matching fullName) then some role
    else rosterMatch nameClean rest

/-- The generic-moderator vocabulary, in source order. -/
def genericVocab : List String := ["moderator", "question", "q", "audience"]

/-- `any(k in name_clean for k in [...])`: substring containment. -/
def hasGenericModerator (nameClean : String) : Bool :=
  genericVocab.any fun k => decide (k.data <:+: nameClean.data)

/-- `"president" in name_clean`. -/
def containsPresident (nameClean : String) : Bool :=
  decide ("president".data <:+: nameClean.data)

/-- The operator's answer to the interactive `input()` loop of
`match_role`; the loop repeats until one of `R`, `D`, `I`, `M` is
entered, so it is modelled as a value of this type. -/
inductive Choice
  | R
  | D
  | I
  | M
  deriving Repr, DecidableEq

/-- The dictionary mapping the operator's choice to a canonical role. -/
def choiceRole : Choice → String
  | .R => "Candidate_R"
  | .D => "Candidate_D"
  | .I => "Candidate_I"
  | .M => "Moderator"

/-- `debate_id in ambiguous_resolution_cache` /
`ambiguous_resolution_cache[debate_id]`. -/
def lookupCache (cache : List (String × String)) (did : String) : Option String :=
  (cache.find? fun p => p.1 = did).map fun p => p.2

/-- Result of one `match_role` call: the returned role, the ambiguity
cache afterwards, and whether the interactive prompt was reached. -/
structure RoleResult where
  role : String
  cache : List (String × String)
  prompted : Bool
  deriving Repr, DecidableEq

/-- `match_role` of `src/normalize_utterances.py`.  The roster
(`canonical_map`) is an insertion-ordered name-to-role association list;
`ask` is the external decision supplied at the prompt.  Rule order as in
the source: roster token overlap (first match wins), generic-moderator
vocabulary, cached/prompted "president" ambiguity, `Moderator`
fallback. -/
def match_role (ask : Choice) (cache : List (String × String)) (name : String)
    (canonical_map : List (String × String)) (debate_id : String) : RoleResult :=
  let name_clean := clean_for_matching name
  match rosterMatch name_clean canonical_map with
  | some role => ⟨role, cache, false⟩
  | none =>
    if hasGenericModerator name_clean then ⟨"Moderator", cache, false⟩
    else if containsPresident name_clean then
      match lookupCache cache debate_id with
      | some r => ⟨r, cache, false⟩
      | none => ⟨choiceRole ask, cache ++ [(debate_id, choiceRole ask)], true⟩
    else ⟨"Moderator", cache, false⟩

/-- The per-file loop of `normalize_all_speakers` restricted to one debate:
resolve each speaker in order, threading the ambiguity cache; returns the
roles, the final cache, and the number of interactive prompts issued. -/
def resolveAll (ask : Choice) (cache : List (String × String))
    (canonical_map : List (String × String)) (debate_id : String) :
    List String → List String × List (String × String) × Nat
  | [] => ([], cache, 0)
  | n :: ns =>
    let r := match_role ask cache (normalize_speaker_name n) canonical_map debate_id
    let rec2 := resolveAll ask r.cache canonical_map debate_id ns
    (r.role :: rec2.1, rec2.2.1, (if r.prompted then 1 else 0) + rec2.2.2)

/-! ## Factiva tag-grammar extraction (`src/media_parse_factiva.py`)

`is_real_article` searches the block for `(?m)^\s*PD\s*$` (and `SN`,
`LP`).  A multiline search of `^\s*TAG\s*$` succeeds exactly when some
line of the block consists of the tag surrounded by whitespace only:
even when the greedy `\s*` crosses newlines, the line containing the tag
itself is whitespace-tag-whitespace, and conversely such a line gives a
match anchored at its own start. -/

/-- One line consists of `tag` with only surrounding whitespace
(`(?m)^\s*TAG\s*$` restricted to that line). -/
def isTagLine (tag : String) (l : String) : Bool := pyStrip l = tag

/-- `re.search(r'(?m)^\s*TAG\s*$', block) is not None` on the line list. -/
def hasTagLine (tag : String) (block : String) : Bool :=
  (splitlines block).any (isTagLine tag)

/-- `is_real_article` of `src/media_parse_factiva.py`: the block must
contain standalone `PD`, `SN` and `LP` lines. -/
def is_real_article (block : String) : Bool :=
  hasTagLine "PD" block && hasTagLine "SN" block && hasTagLine "LP" block

/-- The final filter of `split_factiva_file`:
`real = [b for b in blocks if is_real_article(b)]`. -/
def realArticles (blocks : List String) : List String :=
  blocks.filter is_real_article

/-! ## Article body normalizer (`src/media_final_adjustments.py`) -/

/-- `^Write to .+@.+\..+$` after the literal prefix: the remainder
decomposes as `a ++ "@" ++ b ++ "." ++ c` with `a`, `b`, `c` non-empty
(greedy/backtracking existence semantics). -/
def hasEmailTail (r : List Char) : Bool :=
  (List.range r.length).any fun i =>
    decide (1 ≤ i) && decide (r.getD i ' ' = '@') &&
      ((List.range r.length).any fun j =>
        decide (i + 2 ≤ j) && decide (j + 2 ≤ r.length) &&
          decide (r.getD j ' ' = '.'))

/-- `^Copyright \d{4}.+All Rights Reserved\.?$`: literal prefix, four
digits, at least one further character, and the (greedily dotted)
rights-reserved tail at the end of the line. -/
def isCopyrightLine (l : String) : Bool :=
  "Copyright ".data.isPrefixOf l.data &&
    (let d := l.data.drop 10
     decide (4 ≤ d.length) && (d.take 4).all isDigit09) &&
    (("All Rights Reserved.".data.isSuffixOf l.data && decide (35 ≤ l.length)) ||
      ("All Rights Reserved".data.isSuffixOf l.data && decide (34 ≤ l.length)))

/-- `^Document [A-Z0-9]+$`. -/
def isDocumentLine (l : String) : Bool :=
  "Document ".data.isPrefixOf l.data &&
    (let r := l.data.drop 9
     decide (r ≠ []) && r.all fun c => isUpperAZ c || isDigit09 c)

/-- `^\s*---+\s*$`: only whitespace around a run of at least three
dashes. -/
def isRuleLine (l : String) : Bool :=
  decide (3 ≤ (pyStripL l.data).length) && (pyStripL l.data).all (· = '-')

/-- The two-letter field codes of the
`^SC$|^ED$|^PG$|^LA$|^CY$|^NS$|^RE$|^PUB$|^AN$|^IPD$|^SE$|^IN$`
alternation. -/
def fieldCodes : List String :=
  ["SC", "ED", "PG", "LA", "CY", "NS", "RE", "PUB", "AN", "IPD", "SE", "IN"]

/-- `BOILERPLATE_LINE_PATTERNS` of `src/media_final_adjustments.py`,
each compiled to a matcher on the (already stripped) line, under
`re.match` anchoring.  Note that the pattern `@nypost\.com` under
`re.match` only fires at the start of the line. -/
def isBoilerplateLine (line : String) : Bool :=
  "Appeared in the ".data.isPrefixOf line.data ||
  ("Write to ".data.isPrefixOf line.data && hasEmailTail (line.data.drop 9)) ||
  isCopyrightLine line ||
  (line = "All Rights Reserved" || line = "All Rights Reserved.") ||
  line = "Dow Jones & Company, Inc." ||
  line = "N.Y.P. Holdings, Inc." ||
  line = "The New York Times Company" ||
  isDocumentLine line ||
  fieldCodes.contains line ||
  line = "English" ||
  "@nypost.com".data.isSuffixOf line.data ||
  "@nypost.com".data.isPrefixOf line.data ||
  isRuleLine line ||
  "Subscribe to WSJ".data.isPrefixOf line.data

/-- The per-line filter of `strip_boilerplate_lines`: blank lines are
kept verbatim; a non-blank line is dropped when its stripped form
matches a boilerplate pattern. -/
def keepLine (ln : String) : Bool :=
  pyStrip ln = "" || ! isBoilerplateLine (pyStrip ln)

/-- Suffix test for `TAIL_TRIM_PATTERNS[0]`:
`\n+Copyright \d{4}.+All Rights Reserved\.\s*$` with `(?s)`, matched
against the whole remaining text. -/
def tail1At (u : List Char) : Bool :=
  decide (1 ≤ (u.takeWhile (· = '\n')).length) &&
    (let v := u.drop (u.takeWhile (· = '\n')).length
     "Copyright ".data.isPrefixOf v &&
       (let d := v.drop 10
        decide (4 ≤ d.length) && (d.take 4).all isDigit09 &&
          (let w := d.drop 4
           (List.range (w.length + 1)).any fun j =>
             decide (1 ≤ j) && "All Rights Reserved.".data.isPrefixOf (w.drop j) &&
               (w.drop (j + 20)).all isPySpace)))

/-- Suffix test for `TAIL_TRIM_PATTERNS[1]`:
`\n+Write to .+@.+\..+\s*$` with `(?s)`. -/
def tail2At (u : List Char) : Bool :=
  decide (1 ≤ (u.takeWhile (· = '\n')).length) &&
    (let v := u.drop (u.takeWhile (· = '\n')).length
     "Write to ".data.isPrefixOf v && hasEmailTail (v.drop 9))

/-- Suffix test for `TAIL_TRIM_PATTERNS[2]`:
`\n+Subscribe to WSJ.*\s*$` with `(?s)`. -/
def tail3At (u : List Char) : Bool :=
  decide (1 ≤ (u.takeWhile (· = '\n')).length) &&
    "Subscribe to WSJ".data.isPrefixOf (u.drop (u.takeWhile (· = '\n')).length)

/-- `re.match((?s)(.*?)TAIL, t)`: the lazy group takes the least split
position whose suffix matches the tail pattern; on a match the text is
replaced by `group(1).rstrip()`. -/
def applyTail (p : List Char → Bool) (t : List Char) : List Char :=
  match (List.range (t.length + 1)).find? (fun i => p (t.drop i)) with
  | some i => pyRstripL (t.take i)
  | none => t

/-- `strip_boilerplate_lines` of `src/media_final_adjustments.py`:
keep blank lines, drop boilerplate lines, rejoin, then apply the three
tail-trim patterns in order. -/
def strip_boilerplate_lines (text : String) : String :=
  if pyStrip text = "" then text
  else
    ⟨applyTail tail3At (applyTail tail2At (applyTail tail1At
      (String.intercalate "\n" ((splitlines text).filter keepLine)).data))⟩

/-- One match attempt for `(?m)^\s*ns\s*(?=\S)` at a line-start
position: length of the matched span (maximal whitespace run, literal
`ns`, maximal whitespace run, with a non-whitespace character to
follow). -/
def nypMatchLen (s : List Char) : Option Nat :=
  if "ns".data.isPrefixOf (s.drop (s.takeWhile isPySpace).length) then
    match ((s.drop ((s.takeWhile isPySpace).length + 2)).drop
        ((s.drop ((s.takeWhile isPySpace).length + 2)).takeWhile
          isPySpace).length).head? with
    | some _ =>
      some ((s.takeWhile isPySpace).length + 2 +
        ((s.drop ((s.takeWhile isPySpace).length + 2)).takeWhile
          isPySpace).length)
    | none => none
  else none

theorem nypMatchLen_bounds {s : List Char} {k : Nat}
    (h : nypMatchLen s = some k) : 2 ≤ k ∧ k ≤ s.length := by
  unfold nypMatchLen at h
  split at h
  · split at h
    · rename_i c hc
      simp only [Option.some.injEq] at h
      subst h
      refine ⟨by omega, ?_⟩
      have h3 : (s.drop ((s.takeWhile isPySpace).length + 2)).length =
          s.length - ((s.takeWhile isPySpace).length + 2) := by simp
      have h5 : ((s.drop ((s.takeWhile isPySpace).length + 2)).takeWhile
          isPySpace).length < (s.drop ((s.takeWhile isPySpace).length + 2)).length := by
        by_contra hge
        push_neg at hge
        rw [List.drop_eq_nil_of_le hge] at hc
        simp at hc
      omega
    · exact absurd h (by simp)
  · exact absurd h (by simp)

/-- `re.sub(r"(?m)^\s*ns\s*(?=\S)", "", text)`: scan left to right with
a line-start flag; on a match remove the span and resume right after it
(the resume position is a line start only when the last removed
character was a newline). -/
def nypSubF : Nat → List Char → Bool → List Char
  | _, [], _ => []
  | 0, s, _ => s
  | fuel + 1, c :: t, atStart =>
    if atStart then
      match nypMatchLen (c :: t) with
      | some k =>
        nypSubF fuel ((c :: t).drop k) (decide ((c :: t).getD (k - 1) ' ' = '\n'))
      | none => c :: nypSubF fuel t (c = '\n')
    else c :: nypSubF fuel t (c = '\n')

theorem nypSubF_fuel :
    ∀ (fuel₁ fuel₂ : Nat) (s : List Char) (b : Bool), s.length ≤ fuel₁ →
      s.length ≤ fuel₂ → nypSubF fuel₁ s b = nypSubF fuel₂ s b := by
  intro fuel₁
  induction fuel₁ with
  | zero =>
    intro fuel₂ s b h1 h2
    have : s = [] := List.eq_nil_of_length_eq_zero (Nat.le_zero.mp h1)
    subst this
    cases fuel₂ <;> rfl
  | succ n ih =>
    intro fuel₂ s b h1 h2
    cases s with
    | nil => cases fuel₂ <;> rfl
    | cons c t =>
      cases fuel₂ with
      | zero => simp at h2
      | succ n2 =>
        rw [nypSubF, nypSubF]
        simp only [List.length_cons] at h1 h2
        by_cases hb : b
        · rw [if_pos hb, if_pos hb]
          rcases hk : nypMatchLen (c :: t) with _ | k <;> dsimp only
          · rw [ih n2 t (c = '\n') (by omega) (by omega)]
          · have := nypMatchLen_bounds hk
            apply ih
            · simp only [List.length_drop, List.length_cons]
              omega
            · simp only [List.length_drop, List.length_cons]
              omega
        · rw [if_neg hb, if_neg hb, ih n2 t (c = '\n') (by omega) (by omega)]

/-- The scan of `normalize_nyp_bullets` with full fuel. -/
def nypSubAux (s : List Char) (b : Bool) : List Char :=
  nypSubF s.length s b

/-- `normalize_nyp_bullets` of `src/media_final_adjustments.py`
(with `NORMALIZE_NYP_NS = True`). -/
def normalize_nyp_bullets (text : String) : String :=
  ⟨nypSubAux text.data true⟩

/-- `word_count`: `len(re.findall(r"\b\w+\b", text))`, i.e. the number
of maximal word-character runs. -/
def wordCountAux : Bool → List Char → Nat
  | _, [] => 0
  | prevW, c :: t =>
    if isWordChar c then (if prevW then 0 else 1) + wordCountAux true t
    else wordCountAux false t

/-- `word_count` of `src/media_final_adjustments.py`. -/
def word_count (s : String) : Nat := wordCountAux false s.data

/-- The normalization inside `hash_body`:
`re.sub(r"\s+", " ", text).strip().lower()`. -/
def hashNorm (text : String) : String :=
  pyLower (pyStrip ⟨collapseWs text.data⟩)

/-- `hash_body` of `src/media_final_adjustments.py`:
`hashlib.md5(norm.encode()).hexdigest()` applied to the normalized body.
The digest `md5hex` is an external library primitive and is passed as a
parameter; every property proved below holds for the real digest
function (only functionality of the digest is used). -/
def hash_body (md5hex : String → String) (text : String) : String :=
  md5hex (hashNorm text)

/-- `MIN_WORDS` of `src/media_final_adjustments.py`. -/
def MIN_WORDS : Nat := 100

/-- One row of `media_articles_clean_final.csv` as used by `main`
(columns not read by the normalizer are omitted). -/
structure ArticleRec where
  year : Int
  theme : String
  outlet : String
  article_number : Nat
  body : String
  deriving Repr, DecidableEq

/-- `_clean_body` of `main`: boilerplate stripping, then the NYP bullet
normalization for the `nyp` outlet only. -/
def cleanBody (r : ArticleRec) : String :=
  let txt := strip_boilerplate_lines r.body
  if pyLower r.outlet = "nyp" then normalize_nyp_bullets txt else txt

/-- `df.drop_duplicates(subset=["body_fp"], keep="first")`: keep the
first record bearing each fingerprint, in order. -/
def dedupByFp (fp : ArticleRec → String) :
    List ArticleRec → List String → List ArticleRec
  | [], _ => []
  | r :: rs, seen =>
    if seen.contains (fp r) then dedupByFp fp rs seen
    else r :: dedupByFp fp rs (fp r :: seen)

/-- The record-level pipeline of `main` in
`src/media_final_adjustments.py`: clean each body, deduplicate on the
recomputed fingerprint of the cleaned body (first occurrence wins), then
drop records whose cleaned body has fewer than `MIN_WORDS` words. -/
def normalizerPass (md5hex : String → String) (rs : List ArticleRec) :
    List ArticleRec :=
  ((dedupByFp (fun r => hash_body md5hex r.body)
      (rs.map fun r => { r with body := cleanBody r }) []).filter
    fun r => decide (MIN_WORDS ≤ word_count r.body))

/-- A 101-word article body for the `nyp` outlet whose second line starts
with a doubled `ns` marker. -/
def cexBody : String :=
  String.intercalate " " (List.replicate 100 "a") ++ "\nnsnsFoo"

/-! ## Theorems -/

theorem titleAux_accumulate (pre : List String) :
    ∀ (cu : List String) (rest : List String),
      (∀ l ∈ pre, is_speaker_line l = false) →
      titleAux none cu (pre ++ rest) = titleAux none (cu ++ pre.map pyStrip) rest := by
  induction pre with
  | nil =>
    intro cu rest _
    simp
  | cons l pre ih =>
    intro cu rest hpre
    have hl : is_speaker_line l = false := hpre l (by simp)
    have hrest : ∀ x ∈ pre, is_speaker_line x = false := fun x hx =>
      hpre x (by simp [hx])
    simp only [List.cons_append, titleAux, hl, Bool.false_eq_true, if_false,
      List.append_eq]
    rw [ih (cu ++ [pyStrip l]) rest hrest]
    simp

theorem titleAux_speaker_from_line :
    ∀ (lines : List String) (cs : Option String) (cu : List String)
      (sp tx : String), (sp, tx) ∈ titleAux cs cu lines →
      (∃ s, cs = some s ∧ sp = rstripDots s) ∨
      ∃ l ∈ lines, is_speaker_line l = true ∧ sp = rstripDots (pyStrip l) := by
  intro lines
  induction lines with
  | nil =>
    intro cs cu sp tx h
    rcases cs with _ | s
    · simp [titleAux] at h
    · rw [titleAux] at h
      try dsimp only at h
      split at h
      · simp only [List.mem_singleton, Prod.mk.injEq] at h
        exact Or.inl ⟨s, rfl, h.1⟩
      · simp at h
  | cons l ls ih =>
    intro cs cu sp tx h
    rw [titleAux.eq_def] at h
    dsimp only at h
    by_cases hsl : is_speaker_line l = true
    · rw [if_pos hsl] at h
      rcases cs with _ | s
      · rcases ih (some (pyStrip l)) cu sp tx h with ⟨s2, hs2, hsp⟩ | ⟨l2, hl2, h2⟩
        · refine Or.inr ⟨l, by simp, hsl, ?_⟩
          rw [hsp]
          injection hs2 with hs2e
          rw [hs2e]
        · exact Or.inr ⟨l2, by simp [hl2], h2⟩
      · dsimp only at h
        split at h
        · simp only [List.mem_cons] at h
          rcases h with h | h
          · injection h with h1 h2
            exact Or.inl ⟨s, rfl, h1⟩
          · rcases ih (some (pyStrip l)) [] sp tx h with ⟨s2, hs2, hsp⟩ | ⟨l2, hl2, h2⟩
            · refine Or.inr ⟨l, by simp, hsl, ?_⟩
              rw [hsp]
              injection hs2 with hs2e
              rw [hs2e]
            · exact Or.inr ⟨l2, by simp [hl2], h2⟩
        · rcases ih (some (pyStrip l)) cu sp tx h with ⟨s2, hs2, hsp⟩ | ⟨l2, hl2, h2⟩
          · refine Or.inr ⟨l, by simp, hsl, ?_⟩
            rw [hsp]
            injection hs2 with hs2e
            rw [hs2e]
          · exact Or.inr ⟨l2, by simp [hl2], h2⟩
    · rw [if_neg hsl] at h
      rcases ih cs (cu ++ [pyStrip l]) sp tx h with hleft | ⟨l2, hl2, h2⟩
      · exact Or.inl hleft
      · exact Or.inr ⟨l2, by simp [hl2], h2⟩

/-- C1, counterexample: in the title-newline format, text preceding the
first recognized speaker line is *not* discarded — here the preamble line
`"Hello preamble"` ends up at the start of the first emitted utterance's
body, contradicting the claim that such text never appears there. -/
theorem title_preamble_in_first_body_cex :
    (parse_title_newline_format "d" ["Hello preamble", "Mr. Smith.", "I agree."]).map
        (fun u => (u.speaker, u.text)) =
      [("Mr. Smith", "Hello preamble I agree.")] ∧
    "Hello preamble".data.isPrefixOf
        "Hello preamble I agree.".data = true := by
  constructor
  · decide
  · decide

/-- C1 (amended): title-newline segmentation emits no separate utterance
for text preceding the first recognized speaker line (every emitted
speaker comes from a speaker line of the input), but that preamble text
is not discarded: the stripped preamble lines stay in the pending
accumulator, so they are prepended to the body of the first utterance
that is flushed. -/
theorem title_preamble_prepended (did : String) (pre rest : List String)
    (hpre : ∀ l ∈ pre, is_speaker_line l = false) :
    titleAux none [] (pre ++ rest) = titleAux none (pre.map pyStrip) rest ∧
    ∀ sp tx, (sp, tx) ∈ titleAux none [] (pre ++ rest) →
      ∃ l ∈ pre ++ rest, is_speaker_line l = true ∧ sp = rstripDots (pyStrip l) := by
  constructor
  · simpa using titleAux_accumulate pre [] rest hpre
  · intro sp tx h
    rcases titleAux_speaker_from_line (pre ++ rest) none [] sp tx h with ⟨s, hs, -⟩ | hr
    · exact absurd hs (by simp)
    · exact hr

/-- C1, witness for `title_preamble_prepended` at a concrete input. -/
theorem title_preamble_prepended_witness :
    titleAux none [] (["Hello preamble"] ++ ["Mr. Smith.", "I agree."]) =
      titleAux none (["Hello preamble"].map pyStrip) ["Mr. Smith.", "I agree."] ∧
    ∀ sp tx, (sp, tx) ∈ titleAux none []
        (["Hello preamble"] ++ ["Mr. Smith.", "I agree."]) →
      ∃ l ∈ ["Hello preamble"] ++ ["Mr. Smith.", "I agree."],
        is_speaker_line l = true ∧ sp = rstripDots (pyStrip l) :=
  title_preamble_prepended "d" ["Hello preamble"] ["Mr. Smith.", "I agree."]
    (by decide)

/-- C2, counterexample: the inline-caps segmenter emits a record with an
*empty* body — in `"AB: \nCD: x"` the span of `AB` is empty after
stripping, yet a record `("AB", "")` is emitted, contradicting the claim
that every emitted record of every format has non-empty body text. -/
theorem caps_inline_empty_body_cex :
    (parse_regex_format false "d" "AB: \nCD: x").map (fun u => (u.speaker, u.text)) =
      [("AB", ""), ("CD", "x")] ∧
    ((parse_regex_format false "d" "AB: \nCD: x").map (fun u => u.text)).contains ""
      = true := by
  constructor
  · decide
  · decide

/-- C2 (amended): only the honorific-format segmenter guarantees
non-empty body text — its `if utterance:` guard drops empty spans, so
every record it emits has `text ≠ ""` (the regex-format and
title-newline segmenters can emit blank-body records). -/
theorem honorific_body_nonempty (did text : String) :
    ∀ u ∈ parse_honorific_format did text, u.text ≠ "" := by
  intro u hu
  unfold parse_honorific_format at hu
  rw [List.mem_filterMap] at hu
  obtain ⟨p, -, hp⟩ := hu
  try dsimp only at hp
  split at hp
  · rename_i hne
    injection hp with hp
    rw [← hp]
    exact hne
  · exact absurd hp (by simp)

/-- C2, witness for `honorific_body_nonempty` at a concrete input. -/
theorem honorific_body_nonempty_witness :
    ({ idx := 1, debate_id := "d", speaker := "Mr. Smith",
       text := "hello there" } : Utt) ∈
      parse_honorific_format "d" "Mr. Smith.\nhello there\n" ∧
    ({ idx := 1, debate_id := "d", speaker := "Mr. Smith",
       text := "hello there" } : Utt).text ≠ "" :=
  ⟨by decide,
   honorific_body_nonempty "d" "Mr. Smith.\nhello there\n" _ (by decide)⟩

theorem perm_any_eq {α : Type} {l1 l2 : List α} (h : l1.Perm l2) (f : α → Bool) :
    l1.any f = l2.any f := by
  induction h with
  | nil => rfl
  | cons x _ ih => simp [List.any_cons, ih]
  | swap x y l =>
    simp only [List.any_cons]
    cases f x <;> cases f y <;> simp
  | trans _ _ ih1 ih2 => exact ih1.trans ih2

/-- C7: a chunk is accepted as a real article iff it contains standalone
`PD`, `SN` and `LP` lines; acceptance only depends on the multiset of
lines (it is invariant under permutation of the chunk's lines); and in
`split_factiva_file` a chunk missing a tag is silently dropped by the
filter (no error) while chunks with all three tags are kept. -/
theorem real_article_tag_triple :
    (∀ block : String, is_real_article block = true ↔
        (hasTagLine "PD" block = true ∧ hasTagLine "SN" block = true ∧
          hasTagLine "LP" block = true)) ∧
    (∀ b1 b2 : String, (splitlines b1).Perm (splitlines b2) →
        is_real_article b1 = is_real_article b2) ∧
    (∀ (blocks : List String) (block : String), block ∈ blocks →
        is_real_article block = false → block ∉ realArticles blocks) ∧
    (∀ (blocks : List String) (block : String), block ∈ blocks →
        is_real_article block = true → block ∈ realArticles blocks) := by
  refine ⟨?_, ?_, ?_, ?_⟩
  · intro block
    simp [is_real_article, Bool.and_eq_true, and_assoc]
  · intro b1 b2 hperm
    unfold is_real_article hasTagLine
    rw [perm_any_eq hperm, perm_any_eq hperm, perm_any_eq hperm]
  · intro blocks block hmem hfalse hreal
    unfold realArticles at hreal
    rw [List.mem_filter] at hreal
    rw [hreal.2] at hfalse
    exact absurd hfalse (by simp)
  · intro blocks block hmem htrue
    unfold realArticles
    rw [List.mem_filter]
    exact ⟨hmem, htrue⟩

/-- C7, witness for `real_article_tag_triple` at concrete inputs. -/
theorem real_article_tag_triple_witness :
    (is_real_article "SN\nnoise\nLP\nPD" = true ↔
      (hasTagLine "PD" "SN\nnoise\nLP\nPD" = true ∧
        hasTagLine "SN" "SN\nnoise\nLP\nPD" = true ∧
        hasTagLine "LP" "SN\nnoise\nLP\nPD" = true)) ∧
    is_real_article "PD\nSN\nLP" = is_real_article "LP\nPD\nSN" ∧
    "PD\nSN\nbody" ∉ realArticles ["PD\nSN\nbody", "PD\nSN\nLP"] ∧
    "PD\nSN\nLP" ∈ realArticles ["PD\nSN\nbody", "PD\nSN\nLP"] :=
  ⟨real_article_tag_triple.1 "SN\nnoise\nLP\nPD",
   real_article_tag_triple.2.1 "PD\nSN\nLP" "LP\nPD\nSN" (by decide),
   real_article_tag_triple.2.2.1 ["PD\nSN\nbody", "PD\nSN\nLP"] "PD\nSN\nbody"
     (by decide) (by decide),
   real_article_tag_triple.2.2.2 ["PD\nSN\nbody", "PD\nSN\nLP"] "PD\nSN\nLP"
     (by decide) (by decide)⟩

theorem rosterMatch_first (nc : String) :
    ∀ (pre : List (String × String)) (post : List (String × String))
      (e : String × String), e.1 ≠ "" →
      (∀ x ∈ pre, x.1 = "" ∨
        tokenOverlap nc (clean_for_matching x.1) = false) →
      tokenOverlap nc (clean_for_matching e.1) = true →
      rosterMatch nc (pre ++ e :: post) = some e.2 := by
  intro pre
  induction pre with
  | nil =>
    intro post e he hpre hov
    rcases e with ⟨n, role⟩
    simp only [List.nil_append]
    rw [rosterMatch, if_neg he, if_pos hov]
  | cons x pre ih =>
    intro post e he hpre hov
    rcases x with ⟨xn, xr⟩
    rcases hpre (xn, xr) (by simp) with hx | hx
    · simp only [List.cons_append]
      rw [rosterMatch, if_pos hx]
      exact ih post e he (fun y hy => hpre y (by simp [hy])) hov
    · simp only [List.cons_append]
      rw [rosterMatch]
      by_cases hxe : xn = ""
      · rw [if_pos hxe]
        exact ih post e he (fun y hy => hpre y (by simp [hy])) hov
      · rw [if_neg hxe, if_neg (by simp only at hx; simp [hx])]
        exact ih post e he (fun y hy => hpre y (by simp [hy])) hov

theorem rosterMatch_none (nc : String) :
    ∀ (map : List (String × String)),
      (∀ x ∈ map, x.1 = "" ∨
        tokenOverlap nc (clean_for_matching x.1) = false) →
      rosterMatch nc map = none := by
  intro map
  induction map with
  | nil =>
    intro _
    rfl
  | cons x rest ih =>
    intro hall
    rcases x with ⟨xn, xr⟩
    rw [rosterMatch]
    rcases hall (xn, xr) (by simp) with hx | hx
    · rw [if_pos hx]
      exact ih fun y hy => hall y (by simp [hy])
    · by_cases hxe : xn = ""
      · rw [if_pos hxe]
        exact ih fun y hy => hall y (by simp [hy])
      · rw [if_neg hxe, if_neg (by simp only at hx; simp [hx])]
        exact ih fun y hy => hall y (by simp [hy])

/-- C4: role resolution tries its rules in a fixed order — (1) the first
roster entry (in declared order) whose cleaned name shares a token with
the cleaned label wins, regardless of later entries; (2) with no roster
overlap, the generic-moderator vocabulary gives Moderator; (3) with no
roster overlap, no generic hit and no "president" substring, the default
is Moderator; (4) scenario: roster John Smith / Jane Doe with label
"SMITH" resolves to Candidate_R. -/
theorem match_role_rule_order :
    (∀ (ask : Choice) (cache : List (String × String)) (name did : String)
        (pre post : List (String × String)) (e : String × String),
        e.1 ≠ "" →
        (∀ x ∈ pre, x.1 = "" ∨
          tokenOverlap (clean_for_matching name) (clean_for_matching x.1) = false) →
        tokenOverlap (clean_for_matching name) (clean_for_matching e.1) = true →
        (match_role ask cache name (pre ++ e :: post) did).role = e.2) ∧
    (∀ (ask : Choice) (cache : List (String × String)) (name did : String)
        (map : List (String × String)),
        (∀ x ∈ map, x.1 = "" ∨
          tokenOverlap (clean_for_matching name) (clean_for_matching x.1) = false) →
        hasGenericModerator (clean_for_matching name) = true →
        (match_role ask cache name map did).role = "Moderator") ∧
    (∀ (ask : Choice) (cache : List (String × String)) (name did : String)
        (map : List (String × String)),
        (∀ x ∈ map, x.1 = "" ∨
          tokenOverlap (clean_for_matching name) (clean_for_matching x.1) = false) →
        hasGenericModerator (clean_for_matching name) = false →
        containsPresident (clean_for_matching name) = false →
        (match_role ask cache name map did).role = "Moderator") ∧
    (match_role Choice.R [] (normalize_speaker_name "SMITH")
        [("John Smith", "Candidate_R"), ("Jane Doe", "Candidate_D")] "d").role
      = "Candidate_R" := by
  refine ⟨?_, ?_, ?_, by decide⟩
  · intro ask cache name did pre post e he hpre hov
    unfold match_role
    dsimp only
    rw [rosterMatch_first (clean_for_matching name) pre post e he hpre hov]
  · intro ask cache name did map hnone hgen
    unfold match_role
    dsimp only
    rw [rosterMatch_none (clean_for_matching name) map hnone]
    dsimp only
    rw [if_pos hgen]
  · intro ask cache name did map hnone hgen hpres
    unfold match_role
    dsimp only
    rw [rosterMatch_none (clean_for_matching name) map hnone]
    dsimp only
    rw [if_neg (by simp [hgen]), if_neg (by simp [hpres])]

/-- C4, witness for `match_role_rule_order` at concrete inputs: the
first-match rule fires on the second roster entry even though the later
"post" part is non-empty, the generic rule fires for "Question", and the
default fires for an unmatched label. -/
theorem match_role_rule_order_witness :
    (match_role Choice.R [] "Smith"
        ([("Jane Doe", "Candidate_D")] ++ ("John Smith", "Candidate_R") ::
          [("Smith Jones", "Moderator")]) "d").role = "Candidate_R" ∧
    (match_role Choice.R [] "Question" [("John Smith", "Candidate_R")] "d").role
      = "Moderator" ∧
    (match_role Choice.R [] "Xyz" [("John Smith", "Candidate_R")] "d").role
      = "Moderator" :=
  ⟨match_role_rule_order.1 Choice.R [] "Smith" "d"
      [("Jane Doe", "Candidate_D")] [("Smith Jones", "Moderator")]
      ("John Smith", "Candidate_R") (by decide) (by decide) (by decide),
   match_role_rule_order.2.1 Choice.R [] "Question" "d"
      [("John Smith", "Candidate_R")] (by decide) (by decide),
   match_role_rule_order.2.2.1 Choice.R [] "Xyz" "d"
      [("John Smith", "Candidate_R")] (by decide) (by decide) (by decide)⟩

theorem match_role_step (ask : Choice) (cache : List (String × String))
    (n : String) (map : List (String × String)) (did : String) :
    ((match_role ask cache n map did).prompted = false ∧
      (match_role ask cache n map did).cache = cache) ∨
    ((match_role ask cache n map did).prompted = true ∧
      lookupCache cache did = none ∧
      (match_role ask cache n map did).cache = cache ++ [(did, choiceRole ask)]) := by
  unfold match_role
  dsimp only
  rcases rosterMatch (clean_for_matching n) map with _ | role
  · dsimp only
    by_cases hgen : hasGenericModerator (clean_for_matching n) = true
    · rw [if_pos hgen]
      exact Or.inl ⟨rfl, rfl⟩
    · rw [if_neg hgen]
      by_cases hpres : containsPresident (clean_for_matching n) = true
      · rw [if_pos hpres]
        rcases hl : lookupCache cache did with _ | r
        · exact Or.inr ⟨rfl, rfl, rfl⟩
        · exact Or.inl ⟨rfl, rfl⟩
      · rw [if_neg hpres]
        exact Or.inl ⟨rfl, rfl⟩
  · exact Or.inl ⟨rfl, rfl⟩

theorem lookupCache_append (did x : String) :
    ∀ (cache : List (String × String)), lookupCache cache did = none →
      lookupCache (cache ++ [(did, x)]) did = some x := by
  intro cache
  induction cache with
  | nil =>
    intro _
    simp [lookupCache, List.find?_cons]
  | cons p cs ih =>
    intro h
    unfold lookupCache at h ⊢
    rw [List.cons_append]
    rw [List.find?_cons] at h ⊢
    by_cases hp : p.1 = did
    · simp [hp] at h
    · simp only [show (decide (p.1 = did)) = false by simp [hp]] at h ⊢
      exact ih h

theorem resolveAll_prompts_zero (ask : Choice) (map : List (String × String))
    (did : String) :
    ∀ (names : List String) (cache : List (String × String)) (r : String),
      lookupCache cache did = some r →
      (resolveAll ask cache map did names).2.2 = 0 := by
  intro names
  induction names with
  | nil =>
    intro cache r _
    rfl
  | cons n ns ih =>
    intro cache r hl
    rw [resolveAll]
    dsimp only
    rcases match_role_step ask cache (normalize_speaker_name n) map did with
      ⟨hpf, hcf⟩ | ⟨-, hnone, -⟩
    · rw [hpf, hcf]
      simp only [Bool.false_eq_true, if_false, Nat.zero_add]
      exact ih cache r hl
    · rw [hl] at hnone
      exact absurd hnone (by simp)

theorem resolveAll_prompts_le_one (ask : Choice) (map : List (String × String))
    (did : String) :
    ∀ (names : List String) (cache : List (String × String)),
      lookupCache cache did = none →
      (resolveAll ask cache map did names).2.2 ≤ 1 := by
  intro names
  induction names with
  | nil =>
    intro cache _
    simp [resolveAll]
  | cons n ns ih =>
    intro cache hl
    rw [resolveAll]
    dsimp only
    rcases match_role_step ask cache (normalize_speaker_name n) map did with
      ⟨hpf, hcf⟩ | ⟨hpt, -, hct⟩
    · rw [hpf, hcf]
      simp only [Bool.false_eq_true, if_false, Nat.zero_add]
      exact ih cache hl
    · rw [hpt, hct]
      simp only [if_true]
      have := resolveAll_prompts_zero ask map did ns
        (cache ++ [(did, choiceRole ask)]) (choiceRole ask)
        (lookupCache_append did (choiceRole ask) cache hl)
      omega

/-- C5: the external ambiguity decision is requested at most once per
debate id — (1) when the debate id is already cached, an ambiguous label
(no roster overlap, no generic hit, "president" in the cleaned label)
returns the cached role with no prompt and no cache write; (2) starting
from a cache without the debate id, a whole sequence of labels causes at
most one prompt; (3) starting from a cache that already has the debate
id, a whole sequence of labels causes no prompt at all. -/
theorem ambiguity_cache_once :
    (∀ (ask : Choice) (cache : List (String × String)) (n did r : String)
        (map : List (String × String)),
        lookupCache cache did = some r →
        rosterMatch (clean_for_matching n) map = none →
        hasGenericModerator (clean_for_matching n) = false →
        containsPresident (clean_for_matching n) = true →
        match_role ask cache n map did = ⟨r, cache, false⟩) ∧
    (∀ (ask : Choice) (cache map : List (String × String)) (did : String)
        (names : List String), lookupCache cache did = none →
        (resolveAll ask cache map did names).2.2 ≤ 1) ∧
    (∀ (ask : Choice) (cache map : List (String × String)) (did r : String)
        (names : List String), lookupCache cache did = some r →
        (resolveAll ask cache map did names).2.2 = 0) := by
  refine ⟨?_, ?_, ?_⟩
  · intro ask cache n did r map hl hros hgen hpres
    unfold match_role
    dsimp only
    rw [hros]
    dsimp only
    rw [if_neg (by simp [hgen]), if_pos hpres, hl]
  · intro ask cache map did names h
    exact resolveAll_prompts_le_one ask map did names cache h
  · intro ask cache map did r names h
    exact resolveAll_prompts_zero ask map did names cache r h

/-- C5, witness for `ambiguity_cache_once` at concrete inputs: a cached
debate returns the cached role without prompting, a two-ambiguous-label
sequence prompts once, and with a pre-filled cache it never prompts. -/
theorem ambiguity_cache_once_witness :
    match_role Choice.R [("deb", "Candidate_D")] "President"
        [("John Smith", "Candidate_R")] "deb"
      = ⟨"Candidate_D", [("deb", "Candidate_D")], false⟩ ∧
    (resolveAll Choice.R [] [("John Smith", "Candidate_R")] "deb"
        ["THE PRESIDENT", "MR. PRESIDENT"]).2.2 ≤ 1 ∧
    (resolveAll Choice.R [("deb", "Candidate_D")]
        [("John Smith", "Candidate_R")] "deb"
        ["THE PRESIDENT", "MR. PRESIDENT"]).2.2 = 0 :=
  ⟨ambiguity_cache_once.1 Choice.R [("deb", "Candidate_D")] "President" "deb"
      "Candidate_D" [("John Smith", "Candidate_R")] (by decide) (by decide)
      (by decide) (by decide),
   ambiguity_cache_once.2.1 Choice.R [] [("John Smith", "Candidate_R")] "deb"
      ["THE PRESIDENT", "MR. PRESIDENT"] (by decide),
   ambiguity_cache_once.2.2 Choice.R [("deb", "Candidate_D")]
      [("John Smith", "Candidate_R")] "deb" "Candidate_D"
      ["THE PRESIDENT", "MR. PRESIDENT"] (by decide)⟩

theorem take_takeWhile_length {α : Type} (p : α → Bool) :
    ∀ t : List α, t.take (t.takeWhile p).length = t.takeWhile p := by
  intro t
  induction t with
  | nil => rfl
  | cons c t ih =>
    by_cases hc : p c
    · simp [List.takeWhile_cons, hc, ih]
    · simp [List.takeWhile_cons, hc]

theorem matchHeadCaps_label_shape {m : Bool} {s lab g2 rest : List Char}
    (h : matchHeadCaps m s = some (lab, g2, rest)) :
    2 ≤ lab.length ∧ ∀ c ∈ lab, isCapsSp c = true := by
  unfold matchHeadCaps at h
  rcases hl : labelHeadLen (dropOptNl s) with _ | r <;> rw [hl] at h <;>
    dsimp only at h
  · exact absurd h (by simp)
  have hlab : lab = (dropOptNl s).take r := by
    by_cases hm : m
    · rw [if_pos hm] at h
      rcases hd : (dropOptNl s).drop (r + 1) with _ | ⟨d, v⟩ <;> rw [hd] at h <;>
        dsimp only at h
      · exact absurd h (by simp)
      · by_cases hnl : d = '\n'
        · rw [if_pos hnl] at h
          simp only [Option.some.injEq, Prod.mk.injEq] at h
          exact h.1.symm
        · rw [if_neg hnl] at h
          exact absurd h (by simp)
    · rw [if_neg hm] at h
      simp only [Option.some.injEq, Prod.mk.injEq] at h
      exact h.1.symm
  have hr : r = ((dropOptNl s).takeWhile isCapsSp).length ∧ 2 ≤ r := by
    unfold labelHeadLen at hl
    split at hl
    · rename_i hcond
      cases hl
      exact ⟨rfl, hcond.1⟩
    · exact absurd hl (by simp)
  subst hlab
  rw [hr.1, take_takeWhile_length]
  refine ⟨?_, fun c hc => List.mem_takeWhile_imp hc⟩
  rw [← hr.1]
  have := hr.2
  have hlen : ((dropOptNl s).takeWhile isCapsSp).length =
      ((dropOptNl s).takeWhile isCapsSp).length := rfl
  omega

theorem scanCapsF_label_shape {m : Bool} :
    ∀ (fuel : Nat) (s : List Char) (lab g2 : List Char),
      (lab, g2) ∈ scanCapsF m fuel s →
      2 ≤ lab.length ∧ ∀ c ∈ lab, isCapsSp c = true := by
  intro fuel
  induction fuel with
  | zero =>
    intro s lab g2 h
    simp [scanCapsF] at h
  | succ n ih =>
    intro s lab g2 h
    cases s with
    | nil => simp [scanCapsF] at h
    | cons c t =>
      rw [scanCapsF] at h
      rcases hm : matchHeadCaps m (c :: t) with _ | ⟨lab2, g22, rest⟩ <;>
        rw [hm] at h <;> dsimp only at h
      · exact ih t lab g2 h
      · simp only [List.mem_cons, Prod.mk.injEq] at h
        rcases h with ⟨h1, -⟩ | h
        · subst h1
          exact (matchHeadCaps_label_shape hm)
        · exact ih rest lab g2 h

/-- C10: in both all-caps formats, every emitted speaker label consists
of at least two characters drawn from uppercase letters and spaces (the
`[A-Z ]{2,}` grammar), so a one-character label such as `"Q:"` can never
start an utterance; in the scenarios, a `"Q: ..."` line is absorbed into
the previous utterance's body, or discarded when no utterance has
started. -/
theorem caps_label_two_chars :
    (∀ (m : Bool) (s lab g2 : List Char), (lab, g2) ∈ scanCaps m s →
        2 ≤ lab.length ∧ ∀ c ∈ lab, isCapsSp c = true) ∧
    (parse_regex_format false "d" "SMITH: Hi\nQ: What?\nDOE: Yes").map
        (fun u => (u.speaker, u.text)) =
      [("SMITH", "Hi Q: What?"), ("DOE", "Yes")] ∧
    (parse_regex_format false "d" "Q: What?\nDOE: Yes").map
        (fun u => (u.speaker, u.text)) = [("DOE", "Yes")] := by
  refine ⟨?_, by decide, by decide⟩
  intro m s lab g2 h
  exact scanCapsF_label_shape s.length s lab g2 h

/-- C10, witness for `caps_label_two_chars` at a concrete input. -/
theorem caps_label_two_chars_witness :
    ("AB".data, "x".data) ∈ scanCaps false "AB: x".data ∧
    2 ≤ "AB".data.length ∧ ∀ c ∈ "AB".data, isCapsSp c = true :=
  ⟨by decide,
   caps_label_two_chars.1 false "AB: x".data "AB".data "x".data (by decide)⟩

theorem enumFrom_map_fst_add {α : Type} :
    ∀ (n : Nat) (l : List α),
      (List.enumFrom n l).map (fun p => p.1 + 1) = List.range' (n + 1) l.length := by
  intro n l
  induction l generalizing n with
  | nil => rfl
  | cons a t ih => simp [List.enumFrom, List.range', ih]

theorem enum_ids {α β : Type} (L : List α) (f : Nat × α → β) (g : β → Nat)
    (hfg : ∀ p, g (f p) = p.1 + 1) :
    ((L.enum.map f).map g) = List.range' 1 L.length := by
  rw [List.map_map]
  have hcomp : (g ∘ f) = fun p => p.1 + 1 := funext hfg
  rw [hcomp]
  have h := enumFrom_map_fst_add 0 L
  simpa [List.enum] using h

theorem titleAux_length :
    ∀ (lines : List String) (cs : Option String) (cu : List String),
      titleWF lines = true →
      (titleAux cs cu lines).length =
        (lines.filter (fun l => is_speaker_line l)).length +
          titlePending cs cu lines := by
  intro lines
  induction lines with
  | nil =>
    intro cs cu _
    cases cs with
    | none => simp [titleAux, titlePending]
    | some sp => by_cases hcu : cu = [] <;> simp [titleAux, titlePending, hcu]
  | cons l ls ih =>
    intro cs cu hwf
    simp only [titleWF, Bool.and_eq_true] at hwf
    cases hsp : is_speaker_line l with
    | false =>
      rw [show titleAux cs cu (l :: ls) = titleAux cs (cu ++ [pyStrip l]) ls from
        by simp [titleAux, hsp]]
      rw [ih cs (cu ++ [pyStrip l]) hwf.2]
      have hpend : titlePending cs (cu ++ [pyStrip l]) ls =
          titlePending cs cu (l :: ls) := by
        cases cs <;> by_cases hcu : cu = [] <;> simp [titlePending, hsp, hcu]
      rw [hpend]
      simp [List.filter_cons, hsp]
    | true =>
      have hhead := hwf.1
      rw [hsp] at hhead
      simp only [if_true] at hhead
      cases ls with
      | nil => simp at hhead
      | cons l2 ls' =>
        have hsp2 : is_speaker_line l2 = false := by
          simpa using hhead
        have hpend2 : titlePending (some (pyStrip l)) [] (l2 :: ls') = 1 := by
          simp [titlePending, hsp2]
        cases cs with
        | none =>
          rw [show titleAux none cu (l :: l2 :: ls') =
              titleAux (some (pyStrip l)) cu (l2 :: ls') from by simp [titleAux, hsp]]
          rw [ih (some (pyStrip l)) cu hwf.2]
          have hp : titlePending (some (pyStrip l)) cu (l2 :: ls') = 1 := by
            by_cases hcu : cu = [] <;> simp [titlePending, hsp2, hcu]
          rw [hp]
          simp only [List.filter_cons, hsp, titlePending]
          simp
          try omega
        | some sp =>
          by_cases hcu : cu = []
          · subst hcu
            rw [show titleAux (some sp) [] (l :: l2 :: ls') =
                titleAux (some (pyStrip l)) [] (l2 :: ls') from by
              simp [titleAux, hsp]]
            rw [ih (some (pyStrip l)) [] hwf.2, hpend2]
            simp [List.filter_cons, hsp, titlePending]
          · rw [show titleAux (some sp) cu (l :: l2 :: ls') =
                (rstripDots sp, joinStrip cu) ::
                  titleAux (some (pyStrip l)) [] (l2 :: ls') from by
              simp [titleAux, hsp, hcu]]
            rw [List.length_cons, ih (some (pyStrip l)) [] hwf.2, hpend2]
            simp [List.filter_cons, hsp, titlePending, hcu]
            try omega

theorem snd_mem_of_mem_enumFrom {α : Type} :
    ∀ (n : Nat) (l : List α) (p : Nat × α), p ∈ List.enumFrom n l → p.2 ∈ l := by
  intro n l
  induction l generalizing n with
  | nil => intro p hp; simp [List.enumFrom] at hp
  | cons a t ih =>
    intro p hp
    rw [List.enumFrom] at hp
    rcases List.mem_cons.mp hp with h | h
    · subst h; simp
    · exact List.mem_cons_of_mem a (ih (n + 1) p h)

theorem filterMap_eq_map_of_some {α β : Type} :
    ∀ (l : List α) (f : α → Option β) (g : α → β),
      (∀ a ∈ l, f a = some (g a)) → l.filterMap f = l.map g := by
  intro l f g h
  induction l with
  | nil => rfl
  | cons a t ih =>
    rw [List.filterMap_cons, h a (List.mem_cons_self a t), List.map_cons,
      ih (fun x hx => h x (List.mem_cons_of_mem a hx))]

/-- C3: in each of the three segmenters, the emitted utterance ids are
exactly `1..N`, 1-based, strictly increasing and contiguous, in source
order, where `N` counts the well-formed speaker transitions of that
format: for the all-caps regex formats `N` is the number of pattern
matches (unconditionally); for the title-newline format, on transcripts
whose speaker lines each introduce some text (`titleWF`), `N` is the
number of recognized speaker lines; for the honorific format, when every
match span is non-blank, `N` is the number of `SPEAKER_PATTERN`
matches. -/
theorem segmenters_ids_contiguous :
    (∀ (m : Bool) (did text : String),
        (parse_regex_format m did text).map (fun u => u.idx) =
          List.range' 1 (scanCaps m text.data).length ∧
        (parse_regex_format m did text).length = (scanCaps m text.data).length) ∧
    (∀ (did : String) (lines : List String), titleWF lines = true →
        (parse_title_newline_format did lines).map (fun u => u.idx) =
          List.range' 1 ((lines.filter (fun l => is_speaker_line l)).length) ∧
        (parse_title_newline_format did lines).length =
          (lines.filter (fun l => is_speaker_line l)).length) ∧
    (∀ (did text : String),
        (∀ p ∈ hMatches text, replaceNlSpace (pyStrip (⟨p.2.2⟩ : String)) ≠ "") →
        (parse_honorific_format did text).map (fun u => u.idx) =
          List.range' 1 ((hMatches text).length) ∧
        (parse_honorific_format did text).length = (hMatches text).length) := by
  refine ⟨?_, ?_, ?_⟩
  · intro m did text
    constructor
    · unfold parse_regex_format
      exact enum_ids _ _ _ (fun p => rfl)
    · simp [parse_regex_format]
  · intro did lines hwf
    have hlen : (titleAux none [] lines).length =
        (lines.filter (fun l => is_speaker_line l)).length := by
      rw [titleAux_length lines none [] hwf]
      simp [titlePending]
    constructor
    · rw [show List.range' 1 ((lines.filter (fun l => is_speaker_line l)).length) =
          List.range' 1 ((titleAux none [] lines).length) from by rw [hlen]]
      unfold parse_title_newline_format
      exact enum_ids _ _ _ (fun p => rfl)
    · simp [parse_title_newline_format, hlen]
  · intro did text h
    have key : parse_honorific_format did text =
        (hMatches text).enum.map (fun p =>
          { idx := p.1 + 1
            debate_id := did
            speaker := pyStrip ((p.2.1.getD "") ++ " " ++ (⟨p.2.2.1⟩ : String))
            text := replaceNlSpace (pyStrip ⟨p.2.2.2⟩) }) := by
      unfold parse_honorific_format
      apply filterMap_eq_map_of_some
      intro p hp
      have h2 : replaceNlSpace (pyStrip (⟨p.2.2.2⟩ : String)) ≠ "" :=
        h p.2 (snd_mem_of_mem_enumFrom 0 (hMatches text) p (by simpa [List.enum] using hp))
      dsimp only
      rw [if_pos h2]
    constructor
    · rw [key]
      exact enum_ids _ _ _ (fun p => rfl)
    · rw [key]
      simp

/-- C3, witness for `segmenters_ids_contiguous` at concrete inputs. -/
theorem segmenters_ids_contiguous_witness :
    titleWF ["Mr. Smith.", "hello", "Mr. Jones.", "bye"] = true ∧
    (parse_title_newline_format "d"
        ["Mr. Smith.", "hello", "Mr. Jones.", "bye"]).map (fun u => u.idx) =
      List.range' 1
        ((["Mr. Smith.", "hello", "Mr. Jones.", "bye"].filter
          (fun l => is_speaker_line l)).length) ∧
    (∀ p ∈ hMatches "Mr. Smith.\nhi\n",
        replaceNlSpace (pyStrip (⟨p.2.2⟩ : String)) ≠ "") ∧
    (parse_honorific_format "d" "Mr. Smith.\nhi\n").map (fun u => u.idx) =
      List.range' 1 ((hMatches "Mr. Smith.\nhi\n").length) :=
  ⟨by decide,
   (segmenters_ids_contiguous.2.1 "d"
     ["Mr. Smith.", "hello", "Mr. Jones.", "bye"] (by decide)).1,
   by decide,
   (segmenters_ids_contiguous.2.2 "d" "Mr. Smith.\nhi\n" (by decide)).1⟩

theorem capsWF_spec {r : CapsRec} (hr : capsWF r = true) :
    (2 ≤ r.label.data.length ∧ ∀ c ∈ r.label.data, isCapsSp c = true) ∧
      ∀ c ∈ r.body.data, ¬ c = '\n' := by
  simp only [capsWF, Bool.and_eq_true, decide_eq_true_eq, List.all_eq_true] at hr
  exact ⟨⟨hr.1.1, hr.1.2⟩, hr.2⟩

theorem takeWhile_capsSp_label :
    ∀ (lab rest : List Char), (∀ c ∈ lab, isCapsSp c = true) →
      (lab ++ ':' :: rest).takeWhile isCapsSp = lab := by
  intro lab rest h
  induction lab with
  | nil => rfl
  | cons c l ih =>
    have hc : isCapsSp c = true := h c (List.mem_cons_self c l)
    rw [List.cons_append, List.takeWhile_cons, if_pos hc,
      ih (fun x hx => h x (List.mem_cons_of_mem c hx))]

theorem labelHeadLen_label (lab rest : List Char) (h2 : 2 ≤ lab.length)
    (h : ∀ c ∈ lab, isCapsSp c = true) :
    labelHeadLen (lab ++ ':' :: rest) = some lab.length := by
  unfold labelHeadLen
  rw [takeWhile_capsSp_label lab rest h, List.drop_left]
  simp [h2]

theorem renderCaps_cons (m : Bool) (r : CapsRec) (rs : List CapsRec) :
    renderCaps m (r :: rs) =
      r.label.data ++ ':' :: (if m then '\n' else ' ') ::
        (r.body.data ++ capsTail m rs) := by
  cases rs <;> rfl

theorem labelHeadLen_render (m : Bool) (q : CapsRec) (rs' : List CapsRec)
    (hq : capsWF q = true) :
    labelHeadLen (renderCaps m (q :: rs')) = some q.label.data.length := by
  obtain ⟨⟨h2, hcaps⟩, -⟩ := capsWF_spec hq
  rw [renderCaps_cons]
  exact labelHeadLen_label q.label.data _ h2 hcaps

theorem lazyEnd_body :
    ∀ (body tail : List Char), (∀ c ∈ body, ¬ c = '\n') →
      lazyEnd (body ++ tail) = body.length + lazyEnd tail := by
  intro body tail h
  induction body with
  | nil => simp
  | cons c t ih =>
    have hc : ¬ c = '\n' := h c (List.mem_cons_self c t)
    rw [List.cons_append]
    rw [show lazyEnd (c :: (t ++ tail)) =
        if lookHead (c :: (t ++ tail)) then 0 else lazyEnd (t ++ tail) + 1 from rfl]
    rw [if_neg (by simp [lookHead, hc])]
    rw [ih (fun x hx => h x (List.mem_cons_of_mem c hx))]
    simp only [List.length_cons]
    omega

theorem dropOptNl_render (m : Bool) (r : CapsRec) (rs : List CapsRec)
    (hr : capsWF r = true) :
    dropOptNl (renderCaps m (r :: rs)) = renderCaps m (r :: rs) := by
  obtain ⟨⟨h2, hcaps⟩, -⟩ := capsWF_spec hr
  rcases hld : r.label.data with _ | ⟨c1, ltl⟩
  · rw [hld] at h2; simp at h2
  · have hc1 : isCapsSp c1 = true := hcaps c1 (by rw [hld]; exact List.mem_cons_self _ _)
    have hne : ¬ c1 = '\n' := by
      intro hh
      subst hh
      exact absurd hc1 (by decide)
    rw [renderCaps_cons, hld, List.cons_append]
    simp [dropOptNl, hne]

theorem matchHeadCaps_render (m : Bool) (r : CapsRec) (rs : List CapsRec)
    (hr : capsWF r = true) (hrs : ∀ q ∈ rs, capsWF q = true) :
    matchHeadCaps m (renderCaps m (r :: rs)) =
      some (r.label.data, r.body.data, capsTail m rs) := by
  obtain ⟨⟨h2, hcaps⟩, hnl⟩ := capsWF_spec hr
  have hlz : lazyEnd (capsTail m rs) = 0 := by
    cases rs with
    | nil => rfl
    | cons q rs' =>
      have hq := hrs q (List.mem_cons_self q rs')
      show lazyEnd ('\n' :: renderCaps m (q :: rs')) = 0
      rw [show lazyEnd ('\n' :: renderCaps m (q :: rs')) =
          if lookHead ('\n' :: renderCaps m (q :: rs')) then 0
          else lazyEnd (renderCaps m (q :: rs')) + 1 from rfl]
      rw [if_pos (by simp [lookHead, labelHeadLen_render m q rs' hq])]
  have hdrop : (renderCaps m (r :: rs)).drop (r.label.data.length + 1) =
      (if m then '\n' else ' ') :: (r.body.data ++ capsTail m rs) := by
    rw [renderCaps_cons]
    rw [show r.label.data ++ ':' :: (if m then '\n' else ' ') ::
          (r.body.data ++ capsTail m rs) =
        (r.label.data ++ [':']) ++
          ((if m then '\n' else ' ') :: (r.body.data ++ capsTail m rs)) from by simp]
    rw [show r.label.data.length + 1 = (r.label.data ++ [':']).length from by simp]
    exact List.drop_left _ _
  have htake : (renderCaps m (r :: rs)).take r.label.data.length = r.label.data := by
    rw [renderCaps_cons]
    exact List.take_left _ _
  have hle : lazyEnd (r.body.data ++ capsTail m rs) = r.body.data.length := by
    rw [lazyEnd_body _ _ hnl, hlz, Nat.add_zero]
  unfold matchHeadCaps
  rw [dropOptNl_render m r rs hr, labelHeadLen_render m r rs hr]
  dsimp only
  by_cases hm : m = true
  · rw [if_pos hm, hdrop,
      show (if m then '\n' else ' ') = '\n' from by rw [if_pos hm]]
    dsimp only
    rw [if_pos (rfl : '\n' = '\n')]
    rw [hle, htake, List.take_left, List.drop_left]
  · rw [if_neg hm, hdrop,
      show (if m then '\n' else ' ') = ' ' from by rw [if_neg hm]]
    rw [show dropOptWs (' ' :: (r.body.data ++ capsTail m rs)) =
      r.body.data ++ capsTail m rs from rfl]
    rw [hle, htake, List.take_left, List.drop_left]

theorem scanCaps_render (m : Bool) :
    ∀ rs : List CapsRec, (∀ r ∈ rs, capsWF r = true) →
      scanCaps m (renderCaps m rs) =
        rs.map (fun r => (r.label.data, r.body.data)) ∧
      scanCaps m ('\n' :: renderCaps m rs) =
        rs.map (fun r => (r.label.data, r.body.data)) := by
  intro rs
  induction rs with
  | nil =>
    intro _
    refine ⟨rfl, ?_⟩
    rw [scanCaps_cons]
    rw [show matchHeadCaps m ('\n' :: renderCaps m []) = none from by cases m <;> rfl]
    rfl
  | cons r rs ih =>
    intro h
    have hr := h r (List.mem_cons_self r rs)
    have hrs : ∀ q ∈ rs, capsWF q = true := fun q hq => h q (List.mem_cons_of_mem r hq)
    have ihh := ih hrs
    have hm := matchHeadCaps_render m r rs hr hrs
    obtain ⟨⟨h2, hcaps⟩, -⟩ := capsWF_spec hr
    have htail : scanCaps m (capsTail m rs) =
        rs.map (fun q => (q.label.data, q.body.data)) := by
      cases rs with
      | nil => rfl
      | cons q rs' => exact ihh.2
    constructor
    · rcases hld : r.label.data with _ | ⟨c1, ltl⟩
      · rw [hld] at h2; simp at h2
      · have hrender : renderCaps m (r :: rs) =
            c1 :: (ltl ++ ':' :: (if m then '\n' else ' ') ::
              (r.body.data ++ capsTail m rs)) := by
          rw [renderCaps_cons, hld, List.cons_append]
        rw [hrender, scanCaps_cons, ← hrender, hm]
        dsimp only
        rw [htail, List.map_cons]
    · rw [scanCaps_cons]
      rw [show matchHeadCaps m ('\n' :: renderCaps m (r :: rs)) =
          matchHeadCaps m (renderCaps m (r :: rs)) from by
        unfold matchHeadCaps
        rw [show dropOptNl ('\n' :: renderCaps m (r :: rs)) =
            renderCaps m (r :: rs) from by simp [dropOptNl],
          dropOptNl_render m r rs hr]]
      rw [hm]
      dsimp only
      rw [htail, List.map_cons]

/-- C6: the inline-caps segmenter on the inline rendering and the
newline-caps segmenter on the newline rendering of the same semantic
transcript (same labels and bodies, restructured between the two
layouts) emit identical sequences of (speaker, text) pairs. -/
theorem caps_inline_newline_equiv (did1 did2 : String) (rs : List CapsRec)
    (h : ∀ r ∈ rs, capsWF r = true) :
    (parse_regex_format false did1 ⟨renderCaps false rs⟩).map
        (fun u => (u.speaker, u.text)) =
      (parse_regex_format true did2 ⟨renderCaps true rs⟩).map
        (fun u => (u.speaker, u.text)) := by
  have h1 := (scanCaps_render false rs h).1
  have h2 := (scanCaps_render true rs h).1
  unfold parse_regex_format
  rw [List.map_map, List.map_map]
  show ((scanCaps false (renderCaps false rs)).enum.map _) =
    ((scanCaps true (renderCaps true rs)).enum.map _)
  rw [h1, h2]
  rfl

/-- C6, witness for `caps_inline_newline_equiv` at a concrete transcript. -/
theorem caps_inline_newline_equiv_witness :
    (∀ r ∈ [CapsRec.mk "AB" "hi there", CapsRec.mk "CD EF" "x: y"],
        capsWF r = true) ∧
    (parse_regex_format false "d1"
        ⟨renderCaps false [CapsRec.mk "AB" "hi there", CapsRec.mk "CD EF" "x: y"]⟩).map
        (fun u => (u.speaker, u.text)) =
      (parse_regex_format true "d2"
        ⟨renderCaps true [CapsRec.mk "AB" "hi there", CapsRec.mk "CD EF" "x: y"]⟩).map
        (fun u => (u.speaker, u.text)) :=
  ⟨by decide,
   caps_inline_newline_equiv "d1" "d2"
     [CapsRec.mk "AB" "hi there", CapsRec.mk "CD EF" "x: y"] (by decide)⟩

theorem joinSp_cons2 (w u : List Char) (us : List (List Char)) :
    joinSp (w :: u :: us) = w ++ ' ' :: joinSp (u :: us) := rfl

theorem joinSp_map_lower :
    ∀ W : List (List Char),
      (joinSp W).map lowerChar = joinSp (W.map (List.map lowerChar)) := by
  intro W
  induction W with
  | nil => rfl
  | cons w ws ih =>
    cases ws with
    | nil => rfl
    | cons u us =>
      rw [joinSp_cons2, List.map_cons, List.map_cons, joinSp_cons2,
        ← List.map_cons, ← ih]
      simp [show lowerChar ' ' = ' ' from by decide]

theorem wordsWsAux_ne_nil :
    ∀ (t : List Char) (cur : List Char), ∀ w ∈ wordsWsAux cur t, w ≠ [] := by
  intro t
  induction t with
  | nil =>
    intro cur w hw
    unfold wordsWsAux at hw
    split at hw
    · simp at hw
    · rename_i hcur
      simp only [List.mem_singleton] at hw
      subst hw
      simpa using hcur
  | cons c t ih =>
    intro cur w hw
    unfold wordsWsAux at hw
    split at hw
    · split at hw
      · exact ih [] w hw
      · rename_i hcur
        rcases List.mem_cons.mp hw with h | h
        · subst h; simpa using hcur
        · exact ih [] w h
    · exact ih (c :: cur) w hw

theorem joinSp_eq_nil {W : List (List Char)} (hne : ∀ w ∈ W, w ≠ [])
    (h : joinSp W = []) : W = [] := by
  cases W with
  | nil => rfl
  | cons u us =>
    cases us with
    | nil => exact absurd h (hne u (by simp))
    | cons v vs =>
      rw [joinSp_cons2] at h
      rcases List.append_eq_nil.mp h with ⟨-, h2⟩
      simp at h2

theorem dropWhile_eq_self_of {p : Char → Bool} :
    ∀ (l : List Char), (∀ c ∈ l, p c = false) → l.dropWhile p = l := by
  intro l h
  induction l with
  | nil => rfl
  | cons c t ih =>
    rw [List.dropWhile_cons, if_neg (by simp [h c (List.mem_cons_self c t)])]

theorem dropWhile_head_false {p : Char → Bool} :
    ∀ (t : List Char) {d : Char} {r : List Char},
      t.dropWhile p = d :: r → p d = false := by
  intro t
  induction t with
  | nil => intro d r h; simp at h
  | cons a t' ih =>
    intro d r h
    rw [List.dropWhile_cons] at h
    split at h
    · exact ih h
    · rename_i hpa
      injection h with h1 _
      subst h1
      simpa using hpa

theorem pyRstripL_nonws_append {w : List Char} (X : List Char)
    (hw : ∀ c ∈ w, isPySpace c = false) :
    pyRstripL (w ++ X) = w ++ pyRstripL X := by
  unfold pyRstripL
  rw [List.reverse_append, List.dropWhile_append]
  split
  · rename_i he
    have hX : (X.reverse.dropWhile isPySpace) = [] := by
      simpa [List.isEmpty_iff] using he
    rw [hX, dropWhile_eq_self_of w.reverse (fun c hc => hw c (List.mem_reverse.mp hc))]
    simp
  · rw [List.reverse_append]
    simp

theorem pyRstripL_cons_of_ne {Z : List Char} (c : Char) (h : pyRstripL Z ≠ []) :
    pyRstripL (c :: Z) = c :: pyRstripL Z := by
  have h' : ¬ (Z.reverse.dropWhile isPySpace).isEmpty = true := by
    intro he
    exact h (by simp [pyRstripL, List.isEmpty_iff.mp he])
  unfold pyRstripL
  rw [List.reverse_cons, List.dropWhile_append, if_neg h', List.reverse_append]
  simp

theorem pyRstripL_cons_of_nil {Z : List Char} (c : Char)
    (h : pyRstripL Z = []) (hc : isPySpace c = true) :
    pyRstripL (c :: Z) = [] := by
  have h' : (Z.reverse.dropWhile isPySpace).isEmpty = true := by
    have : (Z.reverse.dropWhile isPySpace).reverse = [] := h
    simp [List.isEmpty_iff, List.reverse_eq_nil_iff.mp this]
  unfold pyRstripL
  rw [List.reverse_cons, List.dropWhile_append, if_pos h']
  simp [List.dropWhile_cons, hc]

theorem pyRstripL_nonws {w : List Char} (hw : ∀ c ∈ w, isPySpace c = false) :
    pyRstripL w = w := by
  have := pyRstripL_nonws_append [] hw
  simpa [pyRstripL] using this

theorem collapseWsAux_false_append :
    ∀ (w rest : List Char), (∀ c ∈ w, isPySpace c = false) →
      collapseWsAux false (w ++ rest) = w ++ collapseWsAux false rest := by
  intro w
  induction w with
  | nil => intro rest _; rfl
  | cons c w' ih =>
    intro rest h
    rw [List.cons_append,
      show collapseWsAux false (c :: (w' ++ rest)) =
        if isPySpace c then
          (if false then collapseWsAux true (w' ++ rest)
           else ' ' :: collapseWsAux true (w' ++ rest))
        else c :: collapseWsAux false (w' ++ rest) from rfl,
      if_neg (by simp [h c (List.mem_cons_self c w')]),
      ih rest (fun x hx => h x (List.mem_cons_of_mem c hx))]
    rfl

theorem wordsWsAux_append :
    ∀ (w : List Char) (cur rest : List Char), (∀ c ∈ w, isPySpace c = false) →
      wordsWsAux cur (w ++ rest) = wordsWsAux (w.reverse ++ cur) rest := by
  intro w
  induction w with
  | nil => intro cur rest _; simp
  | cons c w' ih =>
    intro cur rest h
    rw [List.cons_append,
      show wordsWsAux cur (c :: (w' ++ rest)) =
        if isPySpace c then
          (if cur = [] then wordsWsAux [] (w' ++ rest)
           else cur.reverse :: wordsWsAux [] (w' ++ rest))
        else wordsWsAux (c :: cur) (w' ++ rest) from rfl,
      if_neg (by simp [h c (List.mem_cons_self c w')]),
      ih (c :: cur) rest (fun x hx => h x (List.mem_cons_of_mem c hx))]
    simp

theorem collapseWsAux_true_ws (c : Char) (t : List Char) (hc : isPySpace c = true) :
    collapseWsAux true (c :: t) = collapseWsAux true t := by
  rw [show collapseWsAux true (c :: t) =
      if isPySpace c then collapseWsAux true t
      else c :: collapseWsAux false t from by
    show (if isPySpace c then
        (if true then collapseWsAux true t else ' ' :: collapseWsAux true t)
      else c :: collapseWsAux false t) = _
    rw [if_pos rfl],
    if_pos hc]

theorem collapseWsAux_true_nonws (c : Char) (t : List Char) (hc : isPySpace c = false) :
    collapseWsAux true (c :: t) = c :: collapseWsAux false t := by
  show (if isPySpace c then
      (if true then collapseWsAux true t else ' ' :: collapseWsAux true t)
    else c :: collapseWsAux false t) = _
  rw [if_neg (by simp [hc])]

theorem wordsWsAux_nil_ws (c : Char) (t : List Char) (hc : isPySpace c = true) :
    wordsWsAux [] (c :: t) = wordsWsAux [] t := by
  show (if isPySpace c then
      (if ([] : List Char) = [] then wordsWsAux [] t
       else List.reverse [] :: wordsWsAux [] t)
    else wordsWsAux [c] t) = _
  rw [if_pos hc, if_pos rfl]

theorem wordsWsAux_nil_nonws (c : Char) (t : List Char) (hc : isPySpace c = false) :
    wordsWsAux [] (c :: t) = wordsWsAux [c] t := by
  show (if isPySpace c then
      (if ([] : List Char) = [] then wordsWsAux [] t
       else List.reverse [] :: wordsWsAux [] t)
    else wordsWsAux [c] t) = _
  rw [if_neg (by simp [hc])]

theorem collapseWsAux_true_self_dropWhile :
    ∀ l : List Char, (collapseWsAux true l).dropWhile isPySpace = collapseWsAux true l := by
  intro l
  induction l with
  | nil => rfl
  | cons c t ih =>
    by_cases hc : isPySpace c = true
    · rw [collapseWsAux_true_ws c t hc]; exact ih
    · rw [collapseWsAux_true_nonws c t (by simpa using hc), List.dropWhile_cons,
        if_neg (by simpa using hc)]

theorem collapseWs_dropWhile :
    ∀ l : List Char, (collapseWsAux false l).dropWhile isPySpace = collapseWsAux true l := by
  intro l
  cases l with
  | nil => rfl
  | cons c t =>
    by_cases hc : isPySpace c = true
    · rw [show collapseWsAux false (c :: t) = ' ' :: collapseWsAux true t from by
        show (if isPySpace c then
            (if false then collapseWsAux true t else ' ' :: collapseWsAux true t)
          else c :: collapseWsAux false t) = ' ' :: collapseWsAux true t
        rw [if_pos hc, if_neg (by decide)]]
      rw [List.dropWhile_cons, if_pos (by decide), collapseWsAux_true_self_dropWhile,
        collapseWsAux_true_ws c t hc]
    · rw [show collapseWsAux false (c :: t) = c :: collapseWsAux false t from by
        show (if isPySpace c then
            (if false then collapseWsAux true t else ' ' :: collapseWsAux true t)
          else c :: collapseWsAux false t) = _
        rw [if_neg (by simpa using hc)]]
      rw [List.dropWhile_cons, if_neg (by simpa using hc),
        collapseWsAux_true_nonws c t (by simpa using hc)]

theorem collapse_join :
    ∀ (n : Nat) (l : List Char), l.length ≤ n →
      pyRstripL (collapseWsAux true l) = joinSp (wordsWsAux [] l) := by
  intro n
  induction n with
  | zero =>
    intro l hl
    have : l = [] := List.eq_nil_of_length_eq_zero (Nat.le_zero.mp hl)
    subst this
    rfl
  | succ n ih =>
    intro l hl
    cases l with
    | nil => rfl
    | cons c t =>
      by_cases hc : isPySpace c = true
      · rw [collapseWsAux_true_ws c t hc, wordsWsAux_nil_ws c t hc]
        exact ih t (by simp at hl; omega)
      · have hcf : isPySpace c = false := by simpa using hc
        have hw'mem : ∀ x ∈ t.takeWhile (fun y => !isPySpace y), isPySpace x = false := by
          intro x hx
          have := List.mem_takeWhile_imp hx
          simpa using this
        have hwmem : ∀ x ∈ c :: t.takeWhile (fun y => !isPySpace y), isPySpace x = false := by
          intro x hx
          rcases List.mem_cons.mp hx with h | h
          · subst h; exact hcf
          · exact hw'mem x h
        have ht : t = t.takeWhile (fun y => !isPySpace y) ++
            t.dropWhile (fun y => !isPySpace y) :=
          (List.takeWhile_append_dropWhile _ _).symm
        rw [collapseWsAux_true_nonws c t hcf, wordsWsAux_nil_nonws c t hcf]
        rw [show collapseWsAux false t =
            collapseWsAux false (t.takeWhile (fun y => !isPySpace y) ++
              t.dropWhile (fun y => !isPySpace y)) from by rw [← ht]]
        rw [collapseWsAux_false_append _ _ hw'mem]
        rw [show wordsWsAux [c] t =
            wordsWsAux [c] (t.takeWhile (fun y => !isPySpace y) ++
              t.dropWhile (fun y => !isPySpace y)) from by rw [← ht]]
        rw [wordsWsAux_append _ _ _ hw'mem]
        rcases hrest : t.dropWhile (fun y => !isPySpace y) with _ | ⟨d, rest'⟩
        · rw [show collapseWsAux false [] = [] from rfl, List.append_nil]
          rw [pyRstripL_nonws hwmem]
          rw [show wordsWsAux ((t.takeWhile (fun y => !isPySpace y)).reverse ++ [c]) [] =
            if (t.takeWhile (fun y => !isPySpace y)).reverse ++ [c] = [] then []
            else [((t.takeWhile (fun y => !isPySpace y)).reverse ++ [c]).reverse] from rfl]
          rw [if_neg (by simp)]
          simp [joinSp]
        · have hd : isPySpace d = true := by
            have := dropWhile_head_false (t := t) (p := fun y => !isPySpace y) hrest
            simpa using this
          have hlen : rest'.length ≤ n := by
            have h1 := congrArg List.length ht
            rw [hrest] at h1
            simp at h1 hl
            omega
          have ihz := ih rest' hlen
          rw [show collapseWsAux false (d :: rest') =
              ' ' :: collapseWsAux true rest' from by
            show (if isPySpace d then
                (if false then collapseWsAux true rest'
                 else ' ' :: collapseWsAux true rest')
              else d :: collapseWsAux false rest') =
              ' ' :: collapseWsAux true rest'
            rw [if_pos hd, if_neg (by decide)]]
          rw [show wordsWsAux ((t.takeWhile (fun y => !isPySpace y)).reverse ++ [c])
                (d :: rest') =
              (((t.takeWhile (fun y => !isPySpace y)).reverse ++ [c]).reverse) ::
                wordsWsAux [] rest' from by
            show (if isPySpace d then
                (if (t.takeWhile (fun y => !isPySpace y)).reverse ++ [c] = []
                 then wordsWsAux [] rest'
                 else ((t.takeWhile (fun y => !isPySpace y)).reverse ++ [c]).reverse ::
                   wordsWsAux [] rest')
              else wordsWsAux (d :: ((t.takeWhile (fun y => !isPySpace y)).reverse ++ [c]))
                rest') = _
            rw [if_pos hd, if_neg (by simp)]]
          rw [show ((t.takeWhile (fun y => !isPySpace y)).reverse ++ [c]).reverse =
              c :: t.takeWhile (fun y => !isPySpace y) from by simp]
          rw [show (c :: (t.takeWhile (fun y => !isPySpace y) ++
              (' ' :: collapseWsAux true rest'))) =
            (c :: t.takeWhile (fun y => !isPySpace y)) ++
              (' ' :: collapseWsAux true rest') from rfl]
          rw [pyRstripL_nonws_append _ hwmem]
          by_cases hZ : pyRstripL (collapseWsAux true rest') = []
          · have hwords : wordsWsAux [] rest' = [] :=
              joinSp_eq_nil (wordsWsAux_ne_nil rest' []) (by rw [← ihz, hZ])
            rw [pyRstripL_cons_of_nil ' ' hZ (by decide), hwords, List.append_nil]
            rfl
          · rw [pyRstripL_cons_of_ne ' ' hZ, ihz]
            have hne : wordsWsAux [] rest' ≠ [] := by
              intro hcon
              rw [hcon] at ihz
              exact hZ (by rw [ihz]; rfl)
            rcases List.exists_cons_of_ne_nil hne with ⟨u, us, hu⟩
            rw [hu, joinSp_cons2]

theorem pyStripL_collapse (l : List Char) :
    pyStripL (collapseWsAux false l) = joinSp (wordsWsAux [] l) := by
  show pyRstripL ((collapseWsAux false l).dropWhile isPySpace) = _
  rw [collapseWs_dropWhile]
  exact collapse_join l.length l (Nat.le_refl _)

theorem hashNorm_words (s : String) :
    hashNorm s = ⟨joinSp ((wordsWsAux [] s.data).map (List.map lowerChar))⟩ := by
  show (⟨(pyStripL (collapseWsAux false s.data)).map lowerChar⟩ : String) = _
  rw [pyStripL_collapse, joinSp_map_lower]

theorem dedupByFp_skip (fp : ArticleRec → String) (r2 : ArticleRec)
    (l3 : List ArticleRec) :
    ∀ (l1 : List ArticleRec) (seen : List String),
      (seen.contains (fp r2) = true ∨ ∃ a ∈ l1, fp a = fp r2) →
      dedupByFp fp (l1 ++ r2 :: l3) seen = dedupByFp fp (l1 ++ l3) seen := by
  intro l1
  induction l1 with
  | nil =>
    intro seen h
    have hc : seen.contains (fp r2) = true := by
      rcases h with h | ⟨a, ha, -⟩
      · exact h
      · simp at ha
    simp only [List.nil_append]
    rw [show dedupByFp fp (r2 :: l3) seen = dedupByFp fp l3 seen from by
      simp only [dedupByFp]
      rw [if_pos hc]]
  | cons a l1' ih =>
    intro seen h
    simp only [List.cons_append, dedupByFp]
    by_cases hc : seen.contains (fp a) = true
    · rw [if_pos hc, if_pos hc]
      refine ih seen ?_
      rcases h with h | ⟨b, hb, hfpb⟩
      · exact Or.inl h
      · rcases List.mem_cons.mp hb with hba | hb'
        · subst hba
          rw [hfpb] at hc
          exact Or.inl hc
        · exact Or.inr ⟨b, hb', hfpb⟩
    · rw [if_neg hc, if_neg hc]
      refine congrArg (a :: ·) (ih (fp a :: seen) ?_)
      rcases h with h | ⟨b, hb, hfpb⟩
      · refine Or.inl ?_
        simp only [List.contains_cons, Bool.or_eq_true]
        exact Or.inr h
      · rcases List.mem_cons.mp hb with hba | hb'
        · subst hba
          refine Or.inl ?_
          simp only [List.contains_cons, Bool.or_eq_true]
          refine Or.inl ?_
          rw [hfpb]
          simp
        · exact Or.inr ⟨b, hb', hfpb⟩

theorem dedupByFp_skip2 (fp : ArticleRec → String) (rA rB : ArticleRec)
    (l3 : List ArticleRec) (hfp : fp rA = fp rB) (lA lB : List ArticleRec)
    (seen : List String) :
    dedupByFp fp (lA ++ rA :: (lB ++ rB :: l3)) seen =
      dedupByFp fp (lA ++ rA :: (lB ++ l3)) seen := by
  have h := dedupByFp_skip fp rB l3 (lA ++ rA :: lB) seen
    (Or.inr ⟨rA, by simp, hfp⟩)
  simpa [List.append_assoc] using h

/-- C8: if the cleaned bodies of two records agree word-for-word up to
letter case (equal whitespace-split word lists after lowercasing — in
particular whenever they are equal up to case and whitespace runs), then
their content fingerprints agree, and the normalizer drops the later
record: its output on a list containing both records equals its output
on the same list with the later record removed (the earlier record and
all other records are processed exactly as if the duplicate were
absent). -/
theorem fingerprint_dedup_first_wins (md5hex : String → String)
    (rs1 rs2 rs3 : List ArticleRec) (r1 r2 : ArticleRec)
    (h : (pySplitWs (cleanBody r1)).map pyLower =
         (pySplitWs (cleanBody r2)).map pyLower) :
    hash_body md5hex (cleanBody r1) = hash_body md5hex (cleanBody r2) ∧
    normalizerPass md5hex (rs1 ++ r1 :: (rs2 ++ r2 :: rs3)) =
      normalizerPass md5hex (rs1 ++ r1 :: (rs2 ++ rs3)) := by
  have hw : (wordsWsAux [] (cleanBody r1).data).map (List.map lowerChar) =
      (wordsWsAux [] (cleanBody r2).data).map (List.map lowerChar) := by
    have hd := congrArg (List.map String.data) h
    simp only [pySplitWs, List.map_map] at hd
    exact hd
  have hhn : hashNorm (cleanBody r1) = hashNorm (cleanBody r2) := by
    rw [hashNorm_words, hashNorm_words, hw]
  have hfp : hash_body md5hex (cleanBody r1) = hash_body md5hex (cleanBody r2) :=
    congrArg md5hex hhn
  refine ⟨hfp, ?_⟩
  unfold normalizerPass
  congr 1
  simp only [List.map_append, List.map_cons]
  exact dedupByFp_skip2 (fun r => hash_body md5hex r.body)
    { r1 with body := cleanBody r1 } { r2 with body := cleanBody r2 }
    (rs3.map (fun r => { r with body := cleanBody r })) hfp
    (rs1.map (fun r => { r with body := cleanBody r }))
    (rs2.map (fun r => { r with body := cleanBody r })) []

/-- C8, witness for `fingerprint_dedup_first_wins` at concrete records. -/
theorem fingerprint_dedup_first_wins_witness :
    ((pySplitWs (cleanBody ⟨2020, "t", "x", 1, "Hello  WORLD"⟩)).map pyLower =
      (pySplitWs (cleanBody ⟨2021, "t", "x", 2, "hello world"⟩)).map pyLower) ∧
    hash_body id (cleanBody ⟨2020, "t", "x", 1, "Hello  WORLD"⟩) =
      hash_body id (cleanBody ⟨2021, "t", "x", 2, "hello world"⟩) :=
  ⟨by decide,
   (fingerprint_dedup_first_wins id [] [] []
     ⟨2020, "t", "x", 1, "Hello  WORLD"⟩ ⟨2021, "t", "x", 2, "hello world"⟩
     (by decide)).1⟩

set_option maxRecDepth 1000000 in
/-- C9, counterexample: the normalizer is not idempotent.  For an `nyp`
record whose body ends in a line `"nsnsFoo"`, one pass strips the
leading `ns` marker leaving `"nsFoo"`, which again starts with a
line-start `ns` marker, so a second pass strips it again (`re.sub`
resumes scanning after each replacement, so the newly exposed marker is
only seen by the next run). -/
theorem normalizer_not_idempotent_cex :
    ((normalizerPass (fun s => s) [⟨2020, "t", "nyp", 1, cexBody⟩]).map
        (fun r => r.body) =
      [String.intercalate " " (List.replicate 100 "a") ++ "\nnsFoo"]) ∧
    ((normalizerPass (fun s => s)
        (normalizerPass (fun s => s) [⟨2020, "t", "nyp", 1, cexBody⟩])).map
        (fun r => r.body) =
      [String.intercalate " " (List.replicate 100 "a") ++ "\nFoo"]) ∧
    normalizerPass (fun s => s)
        (normalizerPass (fun s => s) [⟨2020, "t", "nyp", 1, cexBody⟩]) ≠
      normalizerPass (fun s => s) [⟨2020, "t", "nyp", 1, cexBody⟩] := by
  have h1 : (normalizerPass (fun s => s) [⟨2020, "t", "nyp", 1, cexBody⟩]).map
      (fun r => r.body) =
      [String.intercalate " " (List.replicate 100 "a") ++ "\nnsFoo"] := by decide
  have h2 : ((normalizerPass (fun s => s)
      (normalizerPass (fun s => s) [⟨2020, "t", "nyp", 1, cexBody⟩])).map
      (fun r => r.body)) =
      [String.intercalate " " (List.replicate 100 "a") ++ "\nFoo"] := by decide
  refine ⟨h1, h2, ?_⟩
  intro heq
  rw [heq, h1] at h2
  exact absurd h2 (by decide)

theorem dedupByFp_mem (fp : ArticleRec → String) :
    ∀ (l : List ArticleRec) (seen : List String) (r : ArticleRec),
      r ∈ dedupByFp fp l seen → r ∈ l := by
  intro l
  induction l with
  | nil => intro seen r hr; simp [dedupByFp] at hr
  | cons a l ih =>
    intro seen r hr
    simp only [dedupByFp] at hr
    split at hr
    · exact List.mem_cons_of_mem a (ih seen r hr)
    · rcases List.mem_cons.mp hr with h | h
      · subst h; exact List.mem_cons_self _ _
      · exact List.mem_cons_of_mem a (ih (fp a :: seen) r h)

theorem dedupByFp_seen (fp : ArticleRec → String) :
    ∀ (l : List ArticleRec) (seen : List String) (r : ArticleRec),
      r ∈ dedupByFp fp l seen → seen.contains (fp r) = false := by
  intro l
  induction l with
  | nil => intro seen r hr; simp [dedupByFp] at hr
  | cons a l ih =>
    intro seen r hr
    simp only [dedupByFp] at hr
    split at hr
    · exact ih seen r hr
    · rename_i hc
      rcases List.mem_cons.mp hr with h | h
      · subst h
        simpa using hc
      · have := ih (fp a :: seen) r h
        simp only [List.contains_cons, Bool.or_eq_false_iff] at this
        exact this.2

theorem dedupByFp_pairwise (fp : ArticleRec → String) :
    ∀ (l : List ArticleRec) (seen : List String),
      (dedupByFp fp l seen).Pairwise (fun a b => fp a ≠ fp b) := by
  intro l
  induction l with
  | nil => intro seen; simp [dedupByFp]
  | cons a l ih =>
    intro seen
    simp only [dedupByFp]
    split
    · exact ih seen
    · refine List.Pairwise.cons ?_ (ih (fp a :: seen))
      intro b hb
      have := dedupByFp_seen fp l (fp a :: seen) b hb
      simp only [List.contains_cons, Bool.or_eq_false_iff] at this
      intro hab
      rw [hab] at this
      simpa using this.1

theorem dedupByFp_of_distinct (fp : ArticleRec → String) :
    ∀ (l : List ArticleRec) (seen : List String),
      l.Pairwise (fun a b => fp a ≠ fp b) →
      (∀ r ∈ l, seen.contains (fp r) = false) →
      dedupByFp fp l seen = l := by
  intro l
  induction l with
  | nil => intro seen _ _; rfl
  | cons a l ih =>
    intro seen hpw hseen
    rcases List.pairwise_cons.mp hpw with ⟨hhead, htail⟩
    simp only [dedupByFp]
    rw [if_neg (by rw [hseen a (List.mem_cons_self a l)]; simp)]
    refine congrArg (a :: ·) (ih (fp a :: seen) htail ?_)
    intro r hr
    simp only [List.contains_cons, Bool.or_eq_false_iff]
    refine ⟨?_, hseen r (List.mem_cons_of_mem a hr)⟩
    have := hhead r hr
    simp only [beq_eq_false_iff_ne, ne_eq]
    intro hc
    exact this hc.symm

theorem map_eq_self_of {α : Type} (l : List α) (f : α → α)
    (h : ∀ x ∈ l, f x = x) : l.map f = l := by
  induction l with
  | nil => rfl
  | cons a t ih =>
    rw [List.map_cons, h a (List.mem_cons_self a t),
      ih (fun x hx => h x (List.mem_cons_of_mem a hx))]

/-- C9 (amended): on a set of already-clean records — records on which
the body-cleaning step (boilerplate-line stripping plus the `nyp`
bullet-marker stripping) is a no-op — the full normalizer pass is
idempotent: a second pass removes no line, drops no record and changes
no fingerprint.  (Without the already-clean hypothesis idempotence
fails, because the `nyp` marker stripping can expose a fresh line-start
marker; see the counterexample.) -/
theorem normalizer_idempotent_on_clean (md5hex : String → String)
    (rs : List ArticleRec) (h : ∀ r ∈ rs, cleanBody r = r.body) :
    normalizerPass md5hex (normalizerPass md5hex rs) =
      normalizerPass md5hex rs := by
  have heta : ∀ r ∈ rs, ({ r with body := cleanBody r } : ArticleRec) = r := by
    intro r hr
    rw [h r hr]
  have hmap : rs.map (fun r => { r with body := cleanBody r }) = rs :=
    map_eq_self_of rs _ heta
  unfold normalizerPass
  rw [hmap]
  have hmemF : ∀ r ∈ (dedupByFp (fun r => hash_body md5hex r.body) rs []).filter
      (fun r => decide (MIN_WORDS ≤ word_count r.body)), r ∈ rs := by
    intro r hr
    exact dedupByFp_mem _ rs [] r (List.mem_of_mem_filter hr)
  rw [map_eq_self_of _ _ (fun r hr => heta r (hmemF r hr))]
  have hpwF : ((dedupByFp (fun r => hash_body md5hex r.body) rs []).filter
      (fun r => decide (MIN_WORDS ≤ word_count r.body))).Pairwise
      (fun a b => hash_body md5hex a.body ≠ hash_body md5hex b.body) :=
    List.Pairwise.sublist (List.filter_sublist _)
      (dedupByFp_pairwise (fun r => hash_body md5hex r.body) rs [])
  rw [dedupByFp_of_distinct _ _ [] hpwF (fun r _ => rfl)]
  apply List.filter_eq_self.mpr
  intro a ha
  exact (List.mem_filter.mp ha).2

/-- C9, witness for `normalizer_idempotent_on_clean` at a concrete
record set. -/
theorem normalizer_idempotent_on_clean_witness :
    (∀ r ∈ [(⟨2020, "t", "x", 1, "hello world"⟩ : ArticleRec)],
        cleanBody r = r.body) ∧
    normalizerPass id (normalizerPass id
        [(⟨2020, "t", "x", 1, "hello world"⟩ : ArticleRec)]) =
      normalizerPass id [(⟨2020, "t", "x", 1, "hello world"⟩ : ArticleRec)] :=
  ⟨by decide,
   normalizer_idempotent_on_clean id
     [(⟨2020, "t", "x", 1, "hello world"⟩ : ArticleRec)] (by decide)⟩

end Thesis
